import Mathlib

/-!
Verification development for the Role Resolution & Injection Engine of
src/role_injector.py (the "Super-Injecteur TMG" program).  Python strings
are modelled as `List Char`; dictionaries as association lists; the DBF
witness table as a list of records.  All definitions below are translated
from the Python source; section comments name the source function.
-/

set_option maxHeartbeats 1000000

namespace RoleInjector

/-- ASCII upper-casing of a single character, as Python `str.upper` acts on
the ASCII letters used by the engine's keys (the `unidecode` transliteration
step of `normalize` is the identity on the ASCII data modelled here). -/
def upChar (c : Char) : Char :=
  match c with
  | 'a' => 'A' | 'b' => 'B' | 'c' => 'C' | 'd' => 'D' | 'e' => 'E'
  | 'f' => 'F' | 'g' => 'G' | 'h' => 'H' | 'i' => 'I' | 'j' => 'J'
  | 'k' => 'K' | 'l' => 'L' | 'm' => 'M' | 'n' => 'N' | 'o' => 'O'
  | 'p' => 'P' | 'q' => 'Q' | 'r' => 'R' | 's' => 'S' | 't' => 'T'
  | 'u' => 'U' | 'v' => 'V' | 'w' => 'W' | 'x' => 'X' | 'y' => 'Y'
  | 'z' => 'Z' | c => c

/-- ASCII lower-casing, used by the model of Python `str.title`. -/
def lowChar (c : Char) : Char :=
  match c with
  | 'A' => 'a' | 'B' => 'b' | 'C' => 'c' | 'D' => 'd' | 'E' => 'e'
  | 'F' => 'f' | 'G' => 'g' | 'H' => 'h' | 'I' => 'i' | 'J' => 'j'
  | 'K' => 'k' | 'L' => 'l' | 'M' => 'm' | 'N' => 'n' | 'O' => 'o'
  | 'P' => 'p' | 'Q' => 'q' | 'R' => 'r' | 'S' => 's' | 'T' => 't'
  | 'U' => 'u' | 'V' => 'v' | 'W' => 'w' | 'X' => 'x' | 'Y' => 'y'
  | 'Z' => 'z' | c => c

/-- Python `str.strip()`: remove leading and trailing whitespace. -/
def pyStrip (s : List Char) : List Char :=
  ((s.dropWhile Char.isWhitespace).reverse.dropWhile Char.isWhitespace).reverse

/-- `normalize(txt)` of role_injector.py: `unidecode.unidecode(txt).upper().strip()`. -/
def normalize (s : List Char) : List Char :=
  pyStrip (s.map upChar)

/-- Model of Python `str.title` as used for default role labels:
first alphabetic character of each word upper-cased, the rest lower-cased. -/
def pyTitleGo : Bool → List Char → List Char
  | _, [] => []
  | prevAlpha, c :: t =>
    if c.isAlpha then (if prevAlpha then lowChar c else upChar c) :: pyTitleGo true t
    else c :: pyTitleGo false t

/-- Python `str.title()` on a whole string. -/
def pyTitle (s : List Char) : List Char := pyTitleGo false s

/-- Decimal rendering of a natural number, Python `str(n)` for `n ≥ 0`. -/
def natToStr (n : Nat) : List Char := Nat.toDigits 10 n

/-- Python `str.zfill(5)`: left-pad with `'0'` to length 5 (identity when already longer). -/
def pyZfill5 (s : List Char) : List Char :=
  if 5 ≤ s.length then s else List.replicate (5 - s.length) '0' ++ s

/-- Python `f"{n:05d}"` for a non-negative integer `n`: the 5-digit
zero-padded decimal form written to the ROLE field of E.DBF. -/
def formatRole05 (n : Nat) : List Char := pyZfill5 (natToStr n)

/-- Python `str.isdigit()` restricted to ASCII data: non-empty and all digits. -/
def pyIsDigit (s : List Char) : Bool := !s.isEmpty && s.all Char.isDigit

/-- A value read from the ROLE column of E.DBF: TMG may store it as an
integer or as a string (`normalize_role_id`'s docstring). -/
inductive RoleVal
  | int : Nat → RoleVal
  | str : List Char → RoleVal

/-- `normalize_role_id(val)` of role_injector.py: ints are rendered `"%05d"`;
strings are stripped and, when all digits, zero-filled to width 5.
(The Python `except` arm is unreachable for these value shapes.) -/
def normalize_role_id : RoleVal → List Char
  | .int n => formatRole05 n
  | .str v =>
    let s := pyStrip v
    if pyIsDigit s then pyZfill5 s else s

/-- Association-list lookup (Python `dict.get` returning `None` when absent). -/
def alist_get {α β : Type} [DecidableEq α] : List (α × β) → α → Option β
  | [], _ => none
  | (k, v) :: t, a => if k = a then some v else alist_get t a

/-- Association-list store (Python `dict[key] = value`): overwrite in place,
append at the end when the key is new (dict insertion order). -/
def alist_set {α β : Type} [DecidableEq α] : List (α × β) → α → β → List (α × β)
  | [], a, b => [(a, b)]
  | (k, v) :: t, a, b => if k = a then (k, b) :: t else (k, v) :: alist_set t a b

/-- Association-list update through a function, inserting `d0` first when the
key is absent (Python `dict.setdefault` followed by mutation). -/
def alist_update {α β : Type} [DecidableEq α] (f : β → β) (d0 : β) :
    List (α × β) → α → List (α × β)
  | [], a => [(a, f d0)]
  | (k, v) :: t, a => if k = a then (k, f v) :: t else (k, v) :: alist_update f d0 t a

/- ===== Interchange event-key resolution (scan_role_usage / process_events) ===== -/

/-- The level-1 GEDCOM tags scan_role_usage treats as mappable events. -/
def scanTags : List (List Char) :=
  [String.toList "BIRT", String.toList "DEAT", String.toList "MARR",
   String.toList "EVEN", String.toList "FACT", String.toList "OCCU",
   String.toList "BAPM", String.toList "BURI", String.toList "CHR",
   String.toList "CENS", String.toList "GRAD", String.toList "RESI"]

/-- The generic/custom event tag family whose discriminator is the TYPE value. -/
def genericTags : List (List Char) :=
  [String.toList "EVEN", String.toList "FACT", String.toList "OCCU"]

/-- The interchange event mapping: normalized GEDCOM key to TMG target name. -/
abbrev EventMapping := List (List Char × List Char)

/-- Key resolution as scan_role_usage writes it:
`normalize(EVENT_MAPPING.get(normalize(v), v))`. -/
def keyOfScan (em : EventMapping) (v : List Char) : List Char :=
  match alist_get em (normalize v) with
  | some t => normalize t
  | none => normalize v

/-- Key resolution as process_events writes it:
`normalize(EVENT_MAPPING.get(normalize(v), normalize(v)))`. -/
def keyOfInj (em : EventMapping) (v : List Char) : List Char :=
  match alist_get em (normalize v) with
  | some t => normalize t
  | none => normalize (normalize v)

/-- Python truthiness of an optional integer (`None` and `0` are falsy). -/
def truthy : Option Nat → Bool
  | some (_ + 1) => true
  | _ => false

/-- The normalized event key the classification scan (scan_role_usage)
resolves for one event block: a level-1 line `tag val`, and optionally a
level-2 `TYPE typ` sub-line.  Returns `none` for tags outside the scan list. -/
def scanEventKey (em : EventMapping) (tag val : List Char) (typ : Option (List Char)) :
    Option (List Char) :=
  if tag ∈ scanTags then
    let base :=
      if tag ∈ genericTags ∧ val ≠ [] then keyOfScan em val else keyOfScan em tag
    match typ with
    | some tv => some (keyOfScan em tv)
    | none => some base
  else none

/-- The event-type id the injection pass (process_events) resolves for the
same block, given the `evt_ids` map produced by update_tmg_structure:
first the tag key, then (for generic tags with a falsy id so far) the inline
value, and finally a TYPE sub-line override that is kept only when truthy. -/
def injEventEid (em : EventMapping) (evtIds : List (List Char × Nat))
    (tag val : List Char) (typ : Option (List Char)) : Option Nat :=
  let e1 := alist_get evtIds (keyOfScan em tag)
  let e2 :=
    if truthy e1 = false ∧ tag ∈ genericTags ∧ val ≠ [] then
      alist_get evtIds (keyOfInj em val)
    else e1
  match typ with
  | some tv =>
    if tag ∈ genericTags then
      let et := alist_get evtIds (keyOfInj em tv)
      if truthy et then et else e2
    else e2
  | none => e2

/- ===== Year extraction and event matching (extract_year_tmg / flush_event) ===== -/

/-- Leftmost run of four consecutive digits, as `re.search(r'\d{4}', s)`. -/
def findFourDigits : List Char → Option (List Char)
  | c1 :: c2 :: c3 :: c4 :: rest =>
    if c1.isDigit && c2.isDigit && c3.isDigit && c4.isDigit then some [c1, c2, c3, c4]
    else findFourDigits (c2 :: c3 :: c4 :: rest)
  | _ => none

/-- `extract_year_tmg(edate_str)`: TMG dates `1YYYYMMDD` yield `s[1:5]`;
fuzzy dates `0(...)` yield the first four-digit run; otherwise `None`. -/
def extract_year_tmg (s : List Char) : Option (List Char) :=
  if s = [] then none
  else if s.head? = some '1' ∧ 5 ≤ s.length then some ((s.drop 1).take 4)
  else if s.head? = some '0' then findFourDigits s
  else none

/-- Worker for Python `str.split()`: `tok` is the current token, reversed. -/
def pyWordsAux : List Char → List Char → List (List Char)
  | [], tok => if tok = [] then [] else [tok.reverse]
  | c :: cs, tok =>
    if c.isWhitespace then
      if tok = [] then pyWordsAux cs [] else tok.reverse :: pyWordsAux cs []
    else pyWordsAux cs (c :: tok)

/-- Python `str.split()` (split on whitespace runs, dropping empty tokens). -/
def pyWords (s : List Char) : List (List Char) := pyWordsAux s []

/-- The GEDCOM year of flush_event: the first whitespace-separated token of
the DATE value that is all digits of length 4 (`None` when date is absent
or empty). -/
def yGedOf (date : Option (List Char)) : Option (List Char) :=
  match date with
  | none => none
  | some s =>
    if s = [] then none
    else (pyWords s).find? (fun x => pyIsDigit x && (x.length == 4))

/-- One event row of the in-memory G.DBF index (`evt_data` of
load_persons_and_events). -/
structure EventData where
  recno : Nat
  edate : List Char
  per1 : Nat
  per2 : Nat
deriving DecidableEq

/-- The year-compatibility test of flush_event's candidate loop: a candidate
fails only when both sides carry a usable year (non-empty, not `"0000"`)
and they differ. -/
def candMatch (yGed : Option (List Char)) (cand : EventData) : Bool :=
  match yGed with
  | none => true
  | some yg =>
    match extract_year_tmg cand.edate with
    | none => true
    | some yt =>
      if yt ≠ [] ∧ yt ≠ String.toList "0000" ∧ yt ≠ yg then false else true

/-- flush_event's `for cand in candidates: ... break` loop: the first
candidate passing `candMatch` wins. -/
def selectTarget (yGed : Option (List Char)) : List EventData → Option EventData
  | [] => none
  | c :: cs => if candMatch yGed c then some c else selectTarget yGed cs

/- ===== Role usage classification (scan_role_usage / _analyze_role_usage) ===== -/

/-- The eng/fra label pair of a role in ROLES_DB. -/
structure RoleLabels where
  eng : List Char
  fra : List Char
deriving DecidableEq

/-- `ROLES_DB.get(role_norm, {"eng": role_raw.title(), "fra": role_raw.title()})`. -/
def getRoleLabels (rolesDb : List (List Char × RoleLabels)) (rn raw : List Char) :
    RoleLabels :=
  (alist_get rolesDb rn).getD ⟨pyTitle raw, pyTitle raw⟩

/-- One entry of the `role_usage` dict: flags and labels accumulated
globally per normalized role text, plus the set of event keys the role
appears in. -/
structure RoleData where
  normal : Bool
  principal : Bool
  eng : List Char
  fra : List Char
  events : List (List Char)
deriving DecidableEq

/-- Python `set.add` on the model's event list: append when absent. -/
def insertUniq (l : List (List Char)) (e : List Char) : List (List Char) :=
  if e ∈ l then l else l ++ [e]

/-- One `_SHAR` sub-block of an event: the witness interchange id and role text. -/
structure SharRef where
  id : List Char
  role : List Char
deriving DecidableEq

/-- The body of `_analyze_role_usage` for a single `_SHAR` entry:
initialize the role entry if new, add the event key, and set the
principal flag on a self-reference (`shar.id == owner_id`) or the normal
flag otherwise. -/
def bumpShar (rolesDb : List (List Char × RoleLabels)) (ownerId eventKey : List Char)
    (sh : SharRef) (ru : List (List Char × RoleData)) : List (List Char × RoleData) :=
  let rn := normalize sh.role
  let labels := getRoleLabels rolesDb rn sh.role
  let d0 : RoleData := ⟨false, false, labels.eng, labels.fra, []⟩
  alist_update
    (fun d =>
      let d := { d with events := insertUniq d.events eventKey }
      if sh.id = ownerId then { d with principal := true } else { d with normal := true })
    d0 ru rn

/-- `_analyze_role_usage(owner_id, event_name_norm, shars, role_usage)`:
fold `bumpShar` over the `_SHAR` list of one event. -/
def analyze_role_usage (rolesDb : List (List Char × RoleLabels))
    (ownerId eventKey : List Char) (shars : List SharRef)
    (ru : List (List Char × RoleData)) : List (List Char × RoleData) :=
  shars.foldl (fun r sh => bumpShar rolesDb ownerId eventKey sh r) ru

/-- One flushed event of the classification scan: owner, resolved event key,
and its `_SHAR` sub-blocks. -/
structure ScanEvent where
  owner : List Char
  key : List Char
  shars : List SharRef
deriving DecidableEq

/-- `scan_role_usage`'s aggregate: fold `_analyze_role_usage` over all
flushed events of the interchange file. -/
def scanRoleUsage (rolesDb : List (List Char × RoleLabels)) (evs : List ScanEvent) :
    List (List Char × RoleData) :=
  evs.foldl (fun ru ev => analyze_role_usage rolesDb ev.owner ev.key ev.shars ru) []

/- ===== Schema synchronizer (update_tmg_structure) ===== -/

/-- The NORMAL and PRINCIPAL role codes of one role in one event-type
(`role_codes[etype][role_norm]`); absent entries are `none`. -/
structure VariantCodes where
  normal : Option Nat
  principal : Option Nat
deriving DecidableEq

/-- The role-code variant tag (`'type'` field of `roles_to_create` entries). -/
inductive RoleVariant
  | NORMAL
  | PRINCIPAL
deriving DecidableEq

/-- One `roles_to_create` entry of update_tmg_structure. -/
structure CreateEntry where
  eng : List Char
  fra : List Char
  key : List Char
  variant : RoleVariant
deriving DecidableEq

/-- `role_codes[eid].setdefault(role_norm, {})[variant] = code`. -/
def setVariantCode (codes : List (List Char × VariantCodes)) (k : List Char)
    (v : RoleVariant) (c : Nat) : List (List Char × VariantCodes) :=
  alist_update
    (fun vc => match v with
      | .NORMAL => { vc with normal := some c }
      | .PRINCIPAL => { vc with principal := some c })
    ⟨none, none⟩ codes k

/-- The parsed label section of one event-type's TSENTENCE grammar:
the list of `[RL=code]` blocks in order, each with its language labels. -/
abbrev GrammarBlocks := List (Nat × List (List Char))

/-- `existing_roles`: normalized label to role id, every label of every
block, later assignments overwriting earlier ones. -/
def existingRolesOf (blocks : GrammarBlocks) : List (List Char × Nat) :=
  blocks.foldl
    (fun acc b => b.2.foldl (fun a lbl => alist_set a (normalize lbl) b.1) acc) []

/-- `max_role_id`: the maximum role id appearing in the grammar (0 if none). -/
def maxRoleId (blocks : GrammarBlocks) : Nat :=
  blocks.foldl (fun m b => max m b.1) 0

/-- The accumulator of update_tmg_structure's per-role loop. -/
structure SyncAcc where
  creates : List CreateEntry
  codes : List (List Char × VariantCodes)
  needsPrin : Bool
  needsWit : Bool
deriving DecidableEq

/-- The `"Principal "` label prefix. -/
def prinPrefix : List Char := String.toList "Principal "

/-- The NORMAL half of update_tmg_structure's per-role body: reuse an
existing code when the normalized base label already appears in the grammar,
otherwise queue a creation. -/
def processRoleNormal (existing : List (List Char × Nat)) (acc : SyncAcc)
    (rn : List Char) (d : RoleData) : SyncAcc :=
  if d.normal then
    let acc := { acc with needsWit := true }
    match alist_get existing (normalize d.eng) with
    | some c => { acc with codes := setVariantCode acc.codes rn .NORMAL c }
    | none => { acc with creates := acc.creates ++ [⟨d.eng, d.fra, rn, .NORMAL⟩] }
  else acc

/-- The PRINCIPAL half of update_tmg_structure's per-role body, keyed on the
`"Principal "`-prefixed label. -/
def processRolePrincipal (existing : List (List Char × Nat)) (acc : SyncAcc)
    (rn : List Char) (d : RoleData) : SyncAcc :=
  if d.principal then
    let acc := { acc with needsPrin := true }
    match alist_get existing (normalize (prinPrefix ++ d.eng)) with
    | some c => { acc with codes := setVariantCode acc.codes rn .PRINCIPAL c }
    | none =>
      { acc with creates := acc.creates ++ [⟨prinPrefix ++ d.eng, prinPrefix ++ d.fra, rn, .PRINCIPAL⟩] }
  else acc

/-- One iteration of the per-role loop of update_tmg_structure: the NORMAL
block followed by the PRINCIPAL block. -/
def processRole (existing : List (List Char × Nat)) (acc : SyncAcc)
    (rn : List Char) (d : RoleData) : SyncAcc :=
  processRolePrincipal existing (processRoleNormal existing acc rn d) rn d

/-- One step of the id-assignment loop: `current_id += 1`, emit the new
`[RL=...]` block, and record the code under the role's key and variant. -/
def assignStep (st : Nat × GrammarBlocks × List (List Char × VariantCodes))
    (e : CreateEntry) : Nat × GrammarBlocks × List (List Char × VariantCodes) :=
  let cur := st.1 + 1
  (cur, st.2.1 ++ [(cur, [e.eng, e.fra])], setVariantCode st.2.2 e.key e.variant cur)

/-- The id-assignment loop: `current_id := max_role_id` and `current_id += 1`
per created role, emitting the new `[RL=...]` block and recording the code. -/
def assignIds (maxId : Nat) (creates : List CreateEntry)
    (codes : List (List Char × VariantCodes)) :
    GrammarBlocks × List (List Char × VariantCodes) :=
  (creates.foldl assignStep (maxId, [], codes)).2

/-- The per-role fold of update_tmg_structure for one event-type record:
only the roles whose event set contains this event-type are processed. -/
def syncAccOf (enameNorm : List Char) (blocks : GrammarBlocks)
    (roleUsage : List (List Char × RoleData)) : SyncAcc :=
  (roleUsage.filter (fun p => enameNorm ∈ p.2.events)).foldl
    (fun a p => processRole (existingRolesOf blocks) a p.1 p.2) ⟨[], [], false, false⟩

/-- The synchronizer's output for one event-type record. -/
structure SyncResult where
  blocks : GrammarBlocks
  codes : List (List Char × VariantCodes)
  prinrole : Bool
  witrole : Bool
deriving DecidableEq

/-- update_tmg_structure's processing of one event-type record whose
normalized name is `enameNorm`: parse existing roles, keep the roles whose
event set contains this event-type, reuse or create codes, and append the
new blocks to the grammar. -/
def syncEvent (enameNorm : List Char) (blocks : GrammarBlocks)
    (roleUsage : List (List Char × RoleData)) : SyncResult :=
  let existing := existingRolesOf blocks
  let maxId := maxRoleId blocks
  let rolesFor := roleUsage.filter (fun p => enameNorm ∈ p.2.events)
  let acc := rolesFor.foldl (fun a p => processRole existing a p.1 p.2) ⟨[], [], false, false⟩
  let nb := assignIds maxId acc.creates acc.codes
  ⟨blocks ++ nb.1, nb.2, acc.needsPrin, acc.needsWit⟩

/- ===== Witness injector (insert_single_witness / flush_event / inject_witnesses) ===== -/

/-- One witness reference of an event context (`current_evt['witnesses']` entry). -/
structure WitRef where
  wit_ged : List Char
  role : List Char
  note : List Char
deriving DecidableEq

/-- One event context flushed by process_events. -/
structure EvtCtx where
  eid : Option Nat
  date : Option (List Char)
  witnesses : List WitRef
deriving DecidableEq

/-- One row of the E.DBF witness table as the injector writes it. -/
structure WitnessRecord where
  eper : Nat
  gnum : Nat
  dsid : Nat
  sequence : Nat
  primary : Bool
  role : List Char
  witmemo : List Char
deriving DecidableEq

/-- The 4-tuple dedup key `(GNUM, EPER, normalized ROLE, PRIMARY)`. -/
abbrev DedupKey := Nat × Nat × List Char × Bool

/-- The run tally `{'ok', 'principal', 'skip', 'error'}`. -/
structure Stats where
  ok : Nat
  principal : Nat
  skip : Nat
  error : Nat
deriving DecidableEq

/-- The injector's mutable state: the E.DBF table, the in-memory
existing-witness key set, and the tally. -/
structure InjState where
  table : List WitnessRecord
  existing : List DedupKey
  stats : Stats
deriving DecidableEq

/-- The per-reference outcome of insert_single_witness. -/
inductive Outcome
  | ok
  | principal
  | skip
  | error
deriving DecidableEq

/-- `stats[res] += 1`. -/
def bump (s : Stats) : Outcome → Stats
  | .ok => { s with ok := s.ok + 1 }
  | .principal => { s with principal := s.principal + 1 }
  | .skip => { s with skip := s.skip + 1 }
  | .error => { s with error := s.error + 1 }

/-- `stats['error'] += n` (the no-matching-event path of flush_event). -/
def addErrors (s : Stats) (n : Nat) : Stats := { s with error := s.error + n }

/-- The read-only inputs of the injection pass: ROLES_DB, the synchronizer's
role codes, the GEDCOM-to-TMG person map, the G.DBF index and the dataset id. -/
structure Params where
  rolesDb : List (List Char × RoleLabels)
  roleCodes : List (Nat × List (List Char × VariantCodes))
  gedToPerno : List (List Char × Nat)
  eventsIndex : List ((Nat × Nat) × List EventData)
  dsid : Nat

/-- `role_codes.get(eid, {})`. -/
def lookupCodes (rc : List (Nat × List (List Char × VariantCodes))) (eid : Nat) :
    List (List Char × VariantCodes) :=
  (alist_get rc eid).getD []

/-- `roles_this_evt.get(role_norm, {})`. -/
def getVC (m : List (List Char × VariantCodes)) (k : List Char) : VariantCodes :=
  (alist_get m k).getD ⟨none, none⟩

/-- Python `x or y` on optional role codes (`None` and `0` are falsy). -/
def pyOr (a b : Option Nat) : Option Nat := if truthy a then a else b

/-- The role-code selection of insert_single_witness: the required variant of
the specific role when truthy; otherwise the "Witness" fallback chain
(same-category variant first, then the other) and finally the fixed default
code 2.  The second component records that the fallback branch was taken
(which also prepends the role label to the memo). -/
def chooseCode (roleMap witnessMap : VariantCodes) (isSelf : Bool) : Nat × Bool :=
  match (if isSelf then roleMap.principal else roleMap.normal) with
  | some (n + 1) => (n + 1, false)
  | _ =>
    let w := if isSelf then pyOr witnessMap.principal witnessMap.normal
             else pyOr witnessMap.normal witnessMap.principal
    match w with
    | some (n + 1) => (n + 1, true)
    | _ => (2, true)

/-- `max_seq`: the maximum SEQUENCE among the rows of the witness table
having this GNUM (0 when there are none). -/
def maxSeqFor (tbl : List WitnessRecord) (g : Nat) : Nat :=
  tbl.foldl (fun m r => if r.gnum = g ∧ m < r.sequence then r.sequence else m) 0

/-- The string key `'WITNESS'` of the fallback role. -/
def witnessKey : List Char := String.toList "WITNESS"

/-- `insert_single_witness(wit_data, eid, gnum, ...)`: resolve the witness
person, detect self-witness against the event's participant slots, select
the role code, check the 4-tuple dedup key against the in-memory set, and
on success append one record with the next sequence number. -/
def insert_single_witness (P : Params) (eid gnum evtPer1 evtPer2 : Nat)
    (wit : WitRef) (st : InjState) : Outcome × InjState :=
  match alist_get P.gedToPerno wit.wit_ged with
  | none => (.error, st)
  | some 0 => (.error, st)
  | some (w + 1) =>
    let wper := w + 1
    let is_self : Bool := (wper == evtPer1) || ((evtPer2 != 0) && (wper == evtPer2))
    let role_ged_norm := normalize wit.role
    let role_info := getRoleLabels P.rolesDb role_ged_norm wit.role
    let roles_this_evt := lookupCodes P.roleCodes eid
    let role_map := getVC roles_this_evt role_ged_norm
    let witness_map := getVC roles_this_evt witnessKey
    let cf := chooseCode role_map witness_map is_self
    let memo := if cf.2 then '[' :: (role_info.eng ++ (']' :: ' ' :: wit.note)) else wit.note
    let role_formatted := formatRole05 cf.1
    let check_key : DedupKey := (gnum, wper, normalize_role_id (.str role_formatted), is_self)
    if check_key ∈ st.existing then (.skip, st)
    else
      let new_seq := maxSeqFor st.table gnum + 1
      let r0 : WitnessRecord :=
        ⟨wper, gnum, P.dsid, new_seq, is_self, role_formatted, memo.take 60000⟩
      ((if is_self then .principal else .ok),
       ⟨st.table ++ [r0], check_key :: st.existing, st.stats⟩)

/-- The body of flush_event's witness loop: run insert_single_witness and
tally its outcome (`stats[res] += 1`). -/
def insertLoopStep (P : Params) (eid gnum evtPer1 evtPer2 : Nat)
    (s : InjState) (w : WitRef) : InjState :=
  let r := insert_single_witness P eid gnum evtPer1 evtPer2 w s
  { r.2 with stats := bump r.2.stats r.1 }

/-- `flush_event(evt_ctx, pper, ...)`: skip inactive contexts, extract the
GEDCOM year, pick the first year-compatible candidate from the index, count
every witness as an error when none is found (or its record number is the
falsy 0), and otherwise run insert_single_witness over the witnesses with
the candidate's participant slots. -/
def flush_event (P : Params) (pper : Nat) (ctx : EvtCtx) (st : InjState) : InjState :=
  match ctx.eid with
  | none => st
  | some 0 => st
  | some (e + 1) =>
    if ctx.witnesses = [] then st
    else
      let eid := e + 1
      let y_ged := yGedOf ctx.date
      let candidates := (alist_get P.eventsIndex (pper, eid)).getD []
      match selectTarget y_ged candidates with
      | none => { st with stats := addErrors st.stats ctx.witnesses.length }
      | some cand =>
        if cand.recno = 0 then { st with stats := addErrors st.stats ctx.witnesses.length }
        else
          let pp :=
            match candidates.find? (fun d => d.recno == cand.recno) with
            | some d => (d.per1, d.per2)
            | none => (0, 0)
          ctx.witnesses.foldl (insertLoopStep P eid cand.recno pp.1 pp.2) st

/-- The injection pass over all flushed event contexts of the interchange
file, in file order (inject_witnesses / process_block / process_events). -/
def runJobs (P : Params) (jobs : List (Nat × EvtCtx)) (st : InjState) : InjState :=
  jobs.foldl (fun s j => flush_event P j.1 j.2 s) st

/-- load_persons_and_events' E.DBF pass: the 4-tuple keys of all rows with
positive GNUM and EPER, role normalized through `normalize_role_id`. -/
def existingFromTable (tbl : List WitnessRecord) : List DedupKey :=
  tbl.filterMap
    (fun r =>
      if r.gnum ≠ 0 ∧ r.eper ≠ 0 then
        some (r.gnum, r.eper, normalize_role_id (.str r.role), r.primary)
      else none)

/-- One whole engine run over a given initial witness table: load the
existing-witness key set from the table, then process every job. -/
def runEngine (P : Params) (jobs : List (Nat × EvtCtx)) (tbl : List WitnessRecord) :
    InjState :=
  runJobs P jobs ⟨tbl, existingFromTable tbl, ⟨0, 0, 0, 0⟩⟩

/- ===== Pure per-reference classification (proof-side mirror of the injector) ===== -/

/-- The dedup key insert_single_witness computes for one reference, as a pure
function of the read-only inputs (`none` when the witness person is
unresolved or falsy). -/
def classifyWit (P : Params) (eid gnum evtPer1 evtPer2 : Nat) (wit : WitRef) :
    Option DedupKey :=
  match alist_get P.gedToPerno wit.wit_ged with
  | none => none
  | some 0 => none
  | some (w + 1) =>
    let wper := w + 1
    let is_self : Bool := (wper == evtPer1) || ((evtPer2 != 0) && (wper == evtPer2))
    let roles_this_evt := lookupCodes P.roleCodes eid
    let role_map := getVC roles_this_evt (normalize wit.role)
    let witness_map := getVC roles_this_evt witnessKey
    let cf := chooseCode role_map witness_map is_self
    some (gnum, wper, normalize_role_id (.str (formatRole05 cf.1)), is_self)

/-- The record insert_single_witness would append for one reference given the
current table (for the sequence number). -/
def recordOf (P : Params) (eid gnum evtPer1 evtPer2 : Nat) (wit : WitRef)
    (tbl : List WitnessRecord) : WitnessRecord :=
  match alist_get P.gedToPerno wit.wit_ged with
  | some (w + 1) =>
    let wper := w + 1
    let is_self : Bool := (wper == evtPer1) || ((evtPer2 != 0) && (wper == evtPer2))
    let role_ged_norm := normalize wit.role
    let role_info := getRoleLabels P.rolesDb role_ged_norm wit.role
    let roles_this_evt := lookupCodes P.roleCodes eid
    let role_map := getVC roles_this_evt role_ged_norm
    let witness_map := getVC roles_this_evt witnessKey
    let cf := chooseCode role_map witness_map is_self
    let memo := if cf.2 then '[' :: (role_info.eng ++ (']' :: ' ' :: wit.note)) else wit.note
    ⟨wper, gnum, P.dsid, maxSeqFor tbl gnum + 1, is_self, formatRole05 cf.1, memo.take 60000⟩
  | _ => ⟨0, 0, 0, 0, false, [], []⟩

/-- The phase a flushed event context reaches: inactive (no event id or no
witnesses), no matching target event, or a resolved target. -/
inductive JobPhase
  | inactive
  | noTarget
  | target (eid gnum per1 per2 : Nat)
deriving DecidableEq

/-- Pure mirror of flush_event's control flow. -/
def jobPhase (P : Params) (pper : Nat) (ctx : EvtCtx) : JobPhase :=
  match ctx.eid with
  | none => .inactive
  | some 0 => .inactive
  | some (e + 1) =>
    if ctx.witnesses = [] then .inactive
    else
      let candidates := (alist_get P.eventsIndex (pper, e + 1)).getD []
      match selectTarget (yGedOf ctx.date) candidates with
      | none => .noTarget
      | some cand =>
        if cand.recno = 0 then .noTarget
        else
          match candidates.find? (fun d => d.recno == cand.recno) with
          | some d => .target (e + 1) cand.recno d.per1 d.per2
          | none => .target (e + 1) cand.recno 0 0

/-- The dedup keys of the references of one job that reach the dedup check. -/
def jobKeys (P : Params) (pper : Nat) (ctx : EvtCtx) : List DedupKey :=
  match jobPhase P pper ctx with
  | .target eid g p1 p2 => ctx.witnesses.filterMap (classifyWit P eid g p1 p2)
  | _ => []

/-- The number of references of one job that reach the dedup check. -/
def jobClassCount (P : Params) (pper : Nat) (ctx : EvtCtx) : Nat :=
  match jobPhase P pper ctx with
  | .target eid g p1 p2 =>
    ctx.witnesses.countP (fun w => (classifyWit P eid g p1 p2 w).isSome)
  | _ => 0

/-- The number of references of one job counted as errors. -/
def jobErrCount (P : Params) (pper : Nat) (ctx : EvtCtx) : Nat :=
  match jobPhase P pper ctx with
  | .inactive => 0
  | .noTarget => ctx.witnesses.length
  | .target eid g p1 p2 =>
    ctx.witnesses.countP (fun w => (classifyWit P eid g p1 p2 w).isNone)

/-- The sequence-number invariant of the witness table relative to a base
length: every row appended at or after the base received the maximum
sequence among the earlier rows of its event plus one. -/
def SeqInv (base : Nat) (tbl : List WitnessRecord) : Prop :=
  ∀ j, base ≤ j → ∀ (hj : j < tbl.length),
    (tbl.get ⟨j, hj⟩).sequence = maxSeqFor (tbl.take j) ((tbl.get ⟨j, hj⟩).gnum) + 1

/-- The PRINCIPAL-variant codes registered in the synchronizer's output for
one event-type (used to state what "a PRINCIPAL-variant role code" means). -/
def principalCodesOf (rc : List (Nat × List (List Char × VariantCodes))) (eid : Nat) :
    List Nat :=
  (lookupCodes rc eid).foldr
    (fun p acc => match p.2.principal with | some c => c :: acc | none => acc) []

/- ===== Concrete fixtures used to instantiate the theorems below ===== -/

/-- An empty injector state. -/
def exSt0 : InjState := ⟨[], [], ⟨0, 0, 0, 0⟩⟩

/-- A small ROLES_DB with the Witness and Buyer roles. -/
def exRolesDb : List (List Char × RoleLabels) :=
  [(String.toList "WITNESS", ⟨String.toList "Witness", String.toList "Temoin"⟩),
   (String.toList "BUYER", ⟨String.toList "Buyer", String.toList "Acheteur"⟩)]

/-- Synchronizer output giving Buyer the NORMAL code 2 and PRINCIPAL code 3. -/
def exCodes : List (List Char × VariantCodes) :=
  [(String.toList "BUYER", ⟨some 2, some 3⟩)]

/-- Injection parameters for event-type 7 with one candidate event
(record 100, year 1750, participants 11 and 13). -/
def exParams : Params :=
  ⟨exRolesDb, [(7, exCodes)],
   [(String.toList "I1", 11), (String.toList "I2", 12)],
   [((11, 7), [⟨100, String.toList "117501010", 11, 13⟩])], 1⟩

/-- One event context with a third-party witness, a self-witness, and an
unresolvable witness. -/
def exJobs : List (Nat × EvtCtx) :=
  [(11, ⟨some 7, some (String.toList "10 OCT 1750"),
    [⟨String.toList "I2", String.toList "Buyer", String.toList "n1"⟩,
     ⟨String.toList "I1", String.toList "Buyer", String.toList "n2"⟩,
     ⟨String.toList "I9", String.toList "Buyer", String.toList "n3"⟩]⟩)]

/-- Scenario-D parameters: the only candidate's stored year is 1751. -/
def exParamsD : Params :=
  ⟨[], [], [(String.toList "I2", 12)],
   [((1, 1), [⟨5, String.toList "117511010", 1, 0⟩])], 1⟩

/-- Scenario-D event context: interchange year 1750, one witness. -/
def exCtxD : EvtCtx :=
  ⟨some 1, some (String.toList "10 OCT 1750"),
   [⟨String.toList "I2", String.toList "Witness", []⟩]⟩

/-- Parameters with no synchronizer role codes at all: every injected
witness can only receive a fallback code. -/
def exParamsC2 : Params :=
  ⟨exRolesDb, [], [(String.toList "I1", 11)], [], 1⟩

/-- Synchronizer output where only the Witness role carries a code, the
NORMAL-variant code 9. -/
def exCodesC6 : List (List Char × VariantCodes) :=
  [(witnessKey, ⟨some 9, none⟩)]

/-- Parameters whose event-type 7 carries only the Witness NORMAL code 9. -/
def exParamsC6 : Params :=
  ⟨exRolesDb, [(7, exCodesC6)], [(String.toList "I2", 12)], [], 1⟩

/-- Role usage for the synchronizer fixtures: Buyer used both ways on
Marriage; Seller used normally with the base label "Witness" (already
present in the grammar, so its code is reused). -/
def exRu3 : List (List Char × RoleData) :=
  [(String.toList "BUYER",
    ⟨true, true, String.toList "Buyer", String.toList "Acheteur",
     [String.toList "MARRIAGE"]⟩),
   (String.toList "SELLER",
    ⟨true, false, String.toList "Witness", String.toList "Temoin",
     [String.toList "MARRIAGE"]⟩)]

/-- A one-block grammar carrying the role code 1 for the label "Witness". -/
def exBlocks : GrammarBlocks := [(1, [String.toList "Witness"])]

/-- Two scanned events: Buyer used as a self-witness on a Deed, and by a
third party on a Marriage. -/
def exScanEvs : List ScanEvent :=
  [⟨String.toList "I1", String.toList "DEED",
    [⟨String.toList "I1", String.toList "Buyer"⟩]⟩,
   ⟨String.toList "I2", String.toList "MARRIAGE",
    [⟨String.toList "I3", String.toList "Buyer"⟩]⟩]

end RoleInjector

/-! ## Theorems -/

namespace RoleInjector

/-- Upper-casing a character either fixes it or lands in the upper-case range. -/
theorem upChar_cases (c : Char) :
    upChar c = c ∨ upChar c ∈
      ['A', 'B', 'C', 'D', 'E', 'F', 'G', 'H', 'I', 'J', 'K', 'L', 'M',
       'N', 'O', 'P', 'Q', 'R', 'S', 'T', 'U', 'V', 'W', 'X', 'Y', 'Z'] := by
  unfold upChar
  split
  all_goals first
    | (left ; rfl)
    | (right ; decide)

/-- ASCII upper-casing is idempotent. -/
theorem upChar_idem (c : Char) : upChar (upChar c) = upChar c := by
  rcases upChar_cases c with h | h
  · rw [h]
    exact h
  · generalize upChar c = u at h ⊢
    fin_cases h <;> rfl

/-- Upper-casing does not change whitespace-ness. -/
theorem isWhitespace_upChar (c : Char) : (upChar c).isWhitespace = c.isWhitespace := by
  unfold upChar
  split <;> rfl

/-- Dropping a prefix by `p` twice is the same as once. -/
theorem dropWhile_dropWhile (p : Char → Bool) (l : List Char) :
    (l.dropWhile p).dropWhile p = l.dropWhile p := by
  induction l with
  | nil => rfl
  | cons a t ih =>
    by_cases h : p a
    · simp [List.dropWhile_cons, h, ih]
    · simp [List.dropWhile_cons, h]

/-- The head of a `dropWhile` result fails the predicate. -/
theorem dropWhile_head?_false {p : Char → Bool} {l : List Char} {a : Char}
    (h : (l.dropWhile p).head? = some a) : p a = false := by
  have := List.head?_dropWhile_not p l
  rw [h] at this
  exact this

/-- A list whose head fails `p` is unchanged by `dropWhile p`. -/
theorem dropWhile_eq_self_of_head {p : Char → Bool} {l : List Char}
    (h : ∀ a, l.head? = some a → p a = false) : l.dropWhile p = l := by
  cases l with
  | nil => rfl
  | cons a t =>
    have : p a = false := h a rfl
    simp [List.dropWhile_cons, this]

/-- A non-empty `dropWhile` keeps the original last element. -/
theorem getLast?_dropWhile {p : Char → Bool} {l : List Char}
    (h : l.dropWhile p ≠ []) : (l.dropWhile p).getLast? = l.getLast? := by
  obtain ⟨t, ht⟩ := List.dropWhile_suffix (l := l) p
  conv_rhs => rw [← ht]
  rw [List.getLast?_append]
  cases hg : (l.dropWhile p).getLast? with
  | none => exact absurd (List.getLast?_eq_none_iff.mp hg) h
  | some a => rfl

/-- `pyStrip` output starts with a non-whitespace character (or is empty). -/
theorem pyStrip_head {l : List Char} {a : Char}
    (h : (pyStrip l).head? = some a) : a.isWhitespace = false := by
  unfold pyStrip at h
  rw [List.head?_reverse] at h
  have hne : (((l.dropWhile Char.isWhitespace).reverse).dropWhile Char.isWhitespace) ≠ [] := by
    intro he
    rw [he] at h
    simp at h
  rw [getLast?_dropWhile hne, List.getLast?_reverse] at h
  exact dropWhile_head?_false h

/-- Stripping is idempotent. -/
theorem pyStrip_idem (l : List Char) : pyStrip (pyStrip l) = pyStrip l := by
  have h1 : (pyStrip l).dropWhile Char.isWhitespace = pyStrip l :=
    dropWhile_eq_self_of_head (fun a ha => pyStrip_head ha)
  show (((pyStrip l).dropWhile Char.isWhitespace).reverse.dropWhile Char.isWhitespace).reverse
      = pyStrip l
  rw [h1]
  show ((((l.dropWhile Char.isWhitespace).reverse.dropWhile Char.isWhitespace).reverse).reverse.dropWhile Char.isWhitespace).reverse
      = pyStrip l
  rw [List.reverse_reverse, dropWhile_dropWhile]
  rfl

/-- `pyStrip` commutes with ASCII upper-casing. -/
theorem pyStrip_map_upChar (l : List Char) :
    pyStrip (l.map upChar) = (pyStrip l).map upChar := by
  have hcomp : (Char.isWhitespace ∘ upChar) = Char.isWhitespace := by
    funext c
    exact isWhitespace_upChar c
  unfold pyStrip
  rw [List.dropWhile_map, hcomp, ← List.map_reverse, List.dropWhile_map, hcomp,
    ← List.map_reverse]

/-- `normalize` is idempotent: normalizing a normalized key changes nothing. -/
theorem normalize_idem (s : List Char) : normalize (normalize s) = normalize s := by
  show pyStrip ((pyStrip (s.map upChar)).map upChar) = pyStrip (s.map upChar)
  rw [← pyStrip_map_upChar, List.map_map]
  have h : s.map (upChar ∘ upChar) = s.map upChar :=
    List.map_congr_left (fun a _ => upChar_idem a)
  rw [h, pyStrip_idem]

/-- `Nat.digitChar` of a value below ten is a decimal digit character. -/
theorem digitChar_isDigit {m : Nat} (h : m < 10) : (Nat.digitChar m).isDigit = true := by
  interval_cases m <;> decide

/-- `Nat.toDigitsCore` with a non-empty accumulator never returns the empty
string. -/
theorem toDigitsCore_ne_nil : ∀ (fuel n : Nat) (acc : List Char), acc ≠ [] →
    Nat.toDigitsCore 10 fuel n acc ≠ [] := by
  intro fuel
  induction fuel with
  | zero => intro n acc h ; exact h
  | succ fuel ih =>
    intro n acc h
    unfold Nat.toDigitsCore
    dsimp only
    split
    · simp
    · exact ih (n / 10) _ (by simp)

/-- `natToStr` never returns the empty string. -/
theorem natToStr_ne_nil (n : Nat) : natToStr n ≠ [] := by
  show Nat.toDigitsCore 10 (n + 1) n [] ≠ []
  unfold Nat.toDigitsCore
  dsimp only
  split
  · simp
  · exact toDigitsCore_ne_nil n (n / 10) _ (by simp)

/-- Every character `Nat.toDigitsCore` adds to a digits-only accumulator is a
decimal digit. -/
theorem toDigitsCore_digits : ∀ (fuel n : Nat) (acc : List Char),
    (∀ c ∈ acc, c.isDigit = true) →
    ∀ c ∈ Nat.toDigitsCore 10 fuel n acc, c.isDigit = true := by
  intro fuel
  induction fuel with
  | zero => intro n acc h ; exact h
  | succ fuel ih =>
    intro n acc h
    unfold Nat.toDigitsCore
    have hd : ∀ c ∈ Nat.digitChar (n % 10) :: acc, c.isDigit = true := by
      intro c hc
      rcases List.mem_cons.mp hc with rfl | hc
      · exact digitChar_isDigit (Nat.mod_lt n (by norm_num))
      · exact h c hc
    dsimp only
    split
    · exact hd
    · exact ih (n / 10) _ hd

/-- Every character of `natToStr n` is a decimal digit. -/
theorem natToStr_digits (n : Nat) : ∀ c ∈ natToStr n, c.isDigit = true :=
  toDigitsCore_digits (n + 1) n [] (by simp)

/-- Decimal digits are not whitespace. -/
theorem isDigit_not_whitespace {c : Char} (h : c.isDigit = true) :
    c.isWhitespace = false := by
  by_contra hw
  rw [Bool.not_eq_false] at hw
  unfold Char.isWhitespace at hw
  simp only [Bool.or_eq_true, decide_eq_true_eq] at hw
  rcases hw with ((h1 | h1) | h1) | h1 <;>
    · subst h1
      revert h
      decide

/-- `dropWhile` fixes a list none of whose elements satisfy the predicate. -/
theorem dropWhile_eq_self_of_all {p : Char → Bool} {l : List Char}
    (h : ∀ c ∈ l, p c = false) : l.dropWhile p = l := by
  cases l with
  | nil => rfl
  | cons a t => simp [List.dropWhile_cons, h a (List.mem_cons_self a t)]

/-- Stripping fixes a string with no whitespace at all. -/
theorem pyStrip_eq_self_of_all {l : List Char}
    (h : ∀ c ∈ l, c.isWhitespace = false) : pyStrip l = l := by
  unfold pyStrip
  rw [dropWhile_eq_self_of_all h]
  rw [dropWhile_eq_self_of_all (fun c hc => h c (List.mem_reverse.mp hc))]
  exact List.reverse_reverse l

/-- Every character of the padded form `formatRole05 n` is a digit. -/
theorem formatRole05_digits (n : Nat) : ∀ c ∈ formatRole05 n, c.isDigit = true := by
  intro c hc
  unfold formatRole05 pyZfill5 at hc
  split at hc
  · exact natToStr_digits n c hc
  · rw [List.mem_append] at hc
    rcases hc with hc | hc
    · rw [List.eq_of_mem_replicate hc]
      decide
    · exact natToStr_digits n c hc

/-- The padded form is at least five characters long. -/
theorem formatRole05_length (n : Nat) : 5 ≤ (formatRole05 n).length := by
  unfold formatRole05 pyZfill5
  split
  · assumption
  · next h =>
    rw [List.length_append, List.length_replicate]
    omega

/-- The padded form is non-empty and all digits, so `pyIsDigit` accepts it. -/
theorem pyIsDigit_formatRole05 (n : Nat) : pyIsDigit (formatRole05 n) = true := by
  unfold pyIsDigit
  rw [Bool.and_eq_true, List.all_eq_true]
  constructor
  · have := formatRole05_length n
    cases hf : formatRole05 n with
    | nil => rw [hf] at this ; simp at this
    | cons a t => simp
  · intro c hc
    exact formatRole05_digits n c hc

/-- `pyIsDigit` accepts the plain decimal form `natToStr n`. -/
theorem pyIsDigit_natToStr (n : Nat) : pyIsDigit (natToStr n) = true := by
  unfold pyIsDigit
  rw [Bool.and_eq_true, List.all_eq_true]
  constructor
  · cases hf : natToStr n with
    | nil => exact absurd hf (natToStr_ne_nil n)
    | cons a t => simp
  · exact natToStr_digits n

/-- Zero-filling a string already of length at least five changes nothing. -/
theorem pyZfill5_of_long {s : List Char} (h : 5 ≤ s.length) : pyZfill5 s = s := by
  unfold pyZfill5
  rw [if_pos h]

/-- Shared key fact: `normalize_role_id` on the exact 5-digit padded string
written to the ROLE field gives back that string. -/
theorem normalize_role_id_pad (n : Nat) :
    normalize_role_id (.str (formatRole05 n)) = formatRole05 n := by
  show (let s := pyStrip (formatRole05 n); if pyIsDigit s then pyZfill5 s else s)
      = formatRole05 n
  rw [pyStrip_eq_self_of_all
      (fun c hc => isDigit_not_whitespace (formatRole05_digits n c hc))]
  rw [if_pos (pyIsDigit_formatRole05 n)]
  exact pyZfill5_of_long (formatRole05_length n)

/-- Shared key fact: `normalize_role_id` on the integer form is the padded string. -/
theorem normalize_role_id_int (n : Nat) :
    normalize_role_id (.int n) = formatRole05 n := rfl

/-- Shared key fact: `normalize_role_id` on the plain decimal string form is
the padded string. -/
theorem normalize_role_id_plain (n : Nat) :
    normalize_role_id (.str (natToStr n)) = formatRole05 n := by
  show (let s := pyStrip (natToStr n); if pyIsDigit s then pyZfill5 s else s)
      = formatRole05 n
  rw [pyStrip_eq_self_of_all
      (fun c hc => isDigit_not_whitespace (natToStr_digits n c hc))]
  rw [if_pos (pyIsDigit_natToStr n)]
  rfl

/-- C10: for every non-negative integer role code `c`, `normalize_role_id`
applied to the 5-digit zero-padded string written to the database
(`f"{c:05d}"`) equals `normalize_role_id` applied to `c` itself and to the
plain digit-string form `str(c)`; hence the role component of the 4-tuple
key computed at injection time for a new record equals the component that
`load_persons_and_events` computes for that same record on a later run,
whether the database hands the role field back as int or string. -/
theorem c10_dedup_key_coherence (c : Nat) :
    normalize_role_id (.str (formatRole05 c)) = normalize_role_id (.int c) ∧
    normalize_role_id (.str (natToStr c)) = normalize_role_id (.int c) ∧
    normalize_role_id (.str (formatRole05 c)) = formatRole05 c := by
  refine ⟨?_, ?_, normalize_role_id_pad c⟩
  · rw [normalize_role_id_pad, normalize_role_id_int]
  · rw [normalize_role_id_plain, normalize_role_id_int]

/-- The injection pass's key-resolution fallback is the scan pass's
fallback normalized once more, which collapses by idempotence. -/
theorem keyOfInj_eq_keyOfScan (em : EventMapping) (v : List Char) :
    keyOfInj em v = keyOfScan em v := by
  unfold keyOfInj keyOfScan
  cases alist_get em (normalize v) with
  | none => exact normalize_idem v
  | some t => rfl

/-- C7 (amended): the classification scan and the injection pass resolve the
same event for a block when (a) the tag is a standard (non-generic) tag
without a TYPE sub-field, or (b) the tag is generic and either its TYPE
value's key resolves to a truthy event id, or there is no TYPE line and the
tag-derived key does not itself resolve to a truthy id (or the inline value
is empty).  A standard tag with a TYPE sub-field is re-keyed on the TYPE
value by the scan but not by the injection pass, so outside these
conditions the phases can disagree. -/
theorem c7_eventkey_agreement (em : EventMapping) (evtIds : List (List Char × Nat))
    (tag val : List Char) (typ : Option (List Char))
    (htag : tag ∈ scanTags)
    (hside : (tag ∉ genericTags ∧ typ = none) ∨
      (tag ∈ genericTags ∧
        match typ with
        | some tv => truthy (alist_get evtIds (keyOfScan em tv)) = true
        | none => val = [] ∨ truthy (alist_get evtIds (keyOfScan em tag)) = false)) :
    (scanEventKey em tag val typ).bind (alist_get evtIds) =
      injEventEid em evtIds tag val typ := by
  rcases hside with ⟨hng, hnone⟩ | ⟨hg, hrest⟩
  · subst hnone
    have h1 : ¬ (tag ∈ genericTags ∧ val ≠ []) := fun h => hng h.1
    have h2 : ¬ (truthy (alist_get evtIds (keyOfScan em tag)) = false ∧
        tag ∈ genericTags ∧ val ≠ []) := fun h => hng h.2.1
    simp only [scanEventKey, injEventEid, if_pos htag, if_neg h1, if_neg h2,
      Option.some_bind]
  · cases typ with
    | some tv =>
      simp only at hrest
      simp only [scanEventKey, injEventEid, if_pos htag, if_pos hg,
        keyOfInj_eq_keyOfScan, if_pos hrest, Option.some_bind]
    | none =>
      simp only at hrest
      by_cases hval : val = []
      · subst hval
        have h1 : ¬ (tag ∈ genericTags ∧ ([] : List Char) ≠ []) := fun h => h.2 rfl
        have h2 : ¬ (truthy (alist_get evtIds (keyOfScan em tag)) = false ∧
            tag ∈ genericTags ∧ ([] : List Char) ≠ []) := fun h => h.2.2 rfl
        simp only [scanEventKey, injEventEid, if_pos htag, if_neg h1, if_neg h2,
          Option.some_bind]
      · have hfalse : truthy (alist_get evtIds (keyOfScan em tag)) = false := by
          rcases hrest with hv | hf
          · exact absurd hv hval
          · exact hf
        have h1 : tag ∈ genericTags ∧ val ≠ [] := ⟨hg, hval⟩
        have h2 : truthy (alist_get evtIds (keyOfScan em tag)) = false ∧
            tag ∈ genericTags ∧ val ≠ [] := ⟨hfalse, hg, hval⟩
        simp only [scanEventKey, injEventEid, if_pos htag, if_pos h1, if_pos h2,
          keyOfInj_eq_keyOfScan, Option.some_bind]

/-- C7 counterexample: for the standard tag `MARR` carrying a `TYPE X`
sub-field (empty event mapping; both `MARR` and `X` are known event-type
names), the classification scan re-keys the block on `X` (event id 2) while
the injection pass keeps the tag-derived key `MARR` (event id 1): the two
phases disagree on event identity for this block. -/
theorem c7_cex :
    (scanEventKey [] (String.toList "MARR") []
        (some (String.toList "X"))).bind
      (alist_get [(String.toList "MARR", 1), (String.toList "X", 2)]) = some 2 ∧
    injEventEid [] [(String.toList "MARR", 1), (String.toList "X", 2)]
      (String.toList "MARR") [] (some (String.toList "X")) = some 1 := by
  constructor
  · rfl
  · rfl

/-- Witness for C7: a concrete generic `EVEN` block with a `TYPE DEED`
sub-field on which the two key resolutions agree. -/
theorem c7_witness :
    (scanEventKey [] (String.toList "EVEN") []
        (some (String.toList "DEED"))).bind
      (alist_get [(String.toList "DEED", 3)]) =
      injEventEid [] [(String.toList "DEED", 3)]
        (String.toList "EVEN") [] (some (String.toList "DEED")) :=
  c7_eventkey_agreement [] [(String.toList "DEED", 3)]
    (String.toList "EVEN") [] (some (String.toList "DEED"))
    (by decide) (Or.inr ⟨by decide, by decide⟩)

/-- A selected candidate is year-compatible, and is the first compatible
candidate in index storage order. -/
theorem selectTarget_spec (y : Option (List Char)) (l : List EventData) :
    ∀ c, selectTarget y l = some c →
      candMatch y c = true ∧
      ∃ pre post, l = pre ++ c :: post ∧ ∀ d ∈ pre, candMatch y d = false := by
  induction l with
  | nil => intro c h ; exact absurd h (by simp [selectTarget])
  | cons a t ih =>
    intro c h
    unfold selectTarget at h
    by_cases hm : candMatch y a = true
    · rw [if_pos hm] at h
      obtain rfl : a = c := by injection h
      exact ⟨hm, [], t, rfl, by simp⟩
    · rw [if_neg hm] at h
      obtain ⟨hc, pre, post, rfl, hpre⟩ := ih c h
      refine ⟨hc, a :: pre, post, rfl, ?_⟩
      intro d hd
      rcases List.mem_cons.mp hd with rfl | hd
      · exact Bool.eq_false_iff.mpr hm
      · exact hpre d hd

/-- No candidate is selected when every candidate fails the year test. -/
theorem selectTarget_none_of_all {y : Option (List Char)} {l : List EventData}
    (h : ∀ d ∈ l, candMatch y d = false) : selectTarget y l = none := by
  induction l with
  | nil => rfl
  | cons a t ih =>
    unfold selectTarget
    rw [if_neg (by rw [h a (List.mem_cons_self a t)] ; simp)]
    exact ih (fun d hd => h d (List.mem_cons_of_mem a hd))

/-- With no usable interchange year, the first indexed candidate is selected. -/
theorem selectTarget_no_year (l : List EventData) : selectTarget none l = l.head? := by
  induction l with
  | nil => rfl
  | cons a t _ => rfl

/-- A candidate without a usable stored year passes the year test. -/
theorem candMatch_no_stored_year (y : Option (List Char)) (d : EventData)
    (h : extract_year_tmg d.edate = none ∨
      extract_year_tmg d.edate = some (String.toList "0000")) :
    candMatch y d = true := by
  unfold candMatch
  cases y with
  | none => rfl
  | some yg =>
    rcases h with h | h
    · rw [h]
    · rw [h]
      dsimp only
      rw [if_neg]
      intro hc
      exact hc.2.1 rfl

/-- A candidate whose usable stored year differs from the interchange year
fails the year test. -/
theorem candMatch_mismatch {yg yt : List Char} {d : EventData}
    (h : extract_year_tmg d.edate = some yt) (h1 : yt ≠ []) (h2 : yt ≠ String.toList "0000")
    (h3 : yt ≠ yg) : candMatch (some yg) d = false := by
  unfold candMatch
  dsimp only
  rw [h]
  dsimp only
  rw [if_pos ⟨h1, h2, h3⟩]

/-- flush_event with an active context but no matching candidate: every
witness of the context is counted as an error and nothing else changes. -/
theorem flush_event_noTarget (P : Params) (pper : Nat) (ctx : EvtCtx) (st : InjState)
    (e : Nat) (he : ctx.eid = some (e + 1)) (hw : ctx.witnesses ≠ [])
    (hsel : selectTarget (yGedOf ctx.date)
      ((alist_get P.eventsIndex (pper, e + 1)).getD []) = none) :
    flush_event P pper ctx st =
      { st with stats := addErrors st.stats ctx.witnesses.length } := by
  unfold flush_event
  rw [he]
  dsimp only
  rw [if_neg hw]
  rw [hsel]

/-- C5: given a witness reference's (owner person id, event-type id) and the
optional year from the interchange date, the resolver returns the first
indexed candidate whose stored year — when present and non-zero — equals the
extracted year; a candidate lacking a usable year always matches, and with
no extracted year the first candidate is returned; when the interchange year
and every candidate's stored year are both non-zero and differ, no candidate
is selected, flush_event counts every witness of the reference's context as
an error, and changes nothing else. -/
theorem c5_event_matching (P : Params) (pper : Nat) (ctx : EvtCtx) (st : InjState)
    (e : Nat) (yg : List Char)
    (he : ctx.eid = some (e + 1)) (hw : ctx.witnesses ≠ [])
    (hy : yGedOf ctx.date = some yg) :
    (∀ c, selectTarget (yGedOf ctx.date)
        ((alist_get P.eventsIndex (pper, e + 1)).getD []) = some c →
      candMatch (yGedOf ctx.date) c = true ∧
      ∃ pre post, (alist_get P.eventsIndex (pper, e + 1)).getD [] = pre ++ c :: post ∧
        ∀ d ∈ pre, candMatch (yGedOf ctx.date) d = false) ∧
    (∀ d : EventData, (extract_year_tmg d.edate = none ∨
        extract_year_tmg d.edate = some (String.toList "0000")) →
      candMatch (yGedOf ctx.date) d = true) ∧
    (∀ l : List EventData, selectTarget none l = l.head?) ∧
    ((∀ d ∈ (alist_get P.eventsIndex (pper, e + 1)).getD [],
        ∃ yt, extract_year_tmg d.edate = some yt ∧ yt ≠ [] ∧
          yt ≠ String.toList "0000" ∧ yt ≠ yg) →
      selectTarget (yGedOf ctx.date) ((alist_get P.eventsIndex (pper, e + 1)).getD []) = none ∧
      flush_event P pper ctx st =
        { st with stats := addErrors st.stats ctx.witnesses.length }) := by
  refine ⟨selectTarget_spec _ _, ?_, selectTarget_no_year, ?_⟩
  · intro d hd
    exact candMatch_no_stored_year _ d hd
  · intro hall
    have hnone : selectTarget (yGedOf ctx.date)
        ((alist_get P.eventsIndex (pper, e + 1)).getD []) = none := by
      apply selectTarget_none_of_all
      intro d hd
      obtain ⟨yt, hyt, h1, h2, h3⟩ := hall d hd
      rw [hy]
      exact candMatch_mismatch hyt h1 h2 h3
    exact ⟨hnone, flush_event_noTarget P pper ctx st e he hw hnone⟩

/-- Witness for C5 (Scenario D): interchange year 1750 against a single
candidate with stored year 1751 — no candidate selected, the reference's one
witness counted as an error, the table and key set untouched. -/
theorem c5_witness :
    selectTarget (yGedOf exCtxD.date) ((alist_get exParamsD.eventsIndex (1, 1)).getD []) = none ∧
    flush_event exParamsD 1 exCtxD exSt0 =
      { exSt0 with stats := addErrors exSt0.stats exCtxD.witnesses.length } :=
  (c5_event_matching exParamsD 1 exCtxD exSt0 0 (String.toList "1750")
    rfl (by decide) rfl).2.2.2
    (by
      intro d hd
      have hd' : d ∈ [(⟨5, String.toList "117511010", 1, 0⟩ : EventData)] := hd
      rw [List.mem_singleton] at hd'
      subst hd'
      exact ⟨String.toList "1751", rfl, by decide, by decide, by decide⟩)

/- ===== Association-list lemmas ===== -/

theorem alist_get_update_self {α β : Type} [DecidableEq α] (f : β → β) (d0 : β)
    (l : List (α × β)) (a : α) :
    alist_get (alist_update f d0 l a) a = some (f ((alist_get l a).getD d0)) := by
  induction l with
  | nil => simp [alist_update, alist_get]
  | cons p t ih =>
    obtain ⟨k, v⟩ := p
    by_cases h : k = a
    · subst h
      simp [alist_update, alist_get]
    · simp [alist_update, alist_get, h, ih]

theorem alist_get_update_other {α β : Type} [DecidableEq α] (f : β → β) (d0 : β)
    (l : List (α × β)) (a b : α) (h : a ≠ b) :
    alist_get (alist_update f d0 l a) b = alist_get l b := by
  induction l with
  | nil => simp [alist_update, alist_get, h]
  | cons p t ih =>
    obtain ⟨k, v⟩ := p
    by_cases hk : k = a
    · subst hk
      simp [alist_update, alist_get, h]
    · simp [alist_update, alist_get, hk, ih]

theorem alist_get_mem {α β : Type} [DecidableEq α] {l : List (α × β)} {a : α} {b : β}
    (h : alist_get l a = some b) : (a, b) ∈ l := by
  induction l with
  | nil => exact absurd h (by simp [alist_get])
  | cons p t ih =>
    obtain ⟨k, v⟩ := p
    by_cases hk : k = a
    · subst hk
      rw [alist_get, if_pos rfl] at h
      obtain rfl : v = b := by injection h
      exact List.mem_cons_self _ _
    · rw [alist_get, if_neg hk] at h
      exact List.mem_cons_of_mem _ (ih h)

theorem alist_update_keys {α β : Type} [DecidableEq α] (f : β → β) (d0 : β)
    (l : List (α × β)) (a : α) :
    (alist_update f d0 l a).map Prod.fst =
      if a ∈ l.map Prod.fst then l.map Prod.fst else l.map Prod.fst ++ [a] := by
  induction l with
  | nil => simp [alist_update]
  | cons p t ih =>
    obtain ⟨k, v⟩ := p
    by_cases hk : k = a
    · subst hk
      simp [alist_update]
    · have hka : ¬ a = k := fun h => hk h.symm
      simp only [alist_update, if_neg hk, List.map_cons, ih]
      by_cases hm : a ∈ t.map Prod.fst
      · simp [hm, hka]
      · simp [hm, hka]

theorem alist_update_nodup {α β : Type} [DecidableEq α] (f : β → β) (d0 : β)
    {l : List (α × β)} (a : α) (h : (l.map Prod.fst).Nodup) :
    ((alist_update f d0 l a).map Prod.fst).Nodup := by
  rw [alist_update_keys]
  by_cases hm : a ∈ l.map Prod.fst
  · rwa [if_pos hm]
  · rw [if_neg hm]
    simp [List.nodup_append, h, hm]

/- ===== Synchronizer lemmas (update_tmg_structure) ===== -/

theorem getVC_setVariantCode_self (codes : List (List Char × VariantCodes))
    (k : List Char) (v : RoleVariant) (c : Nat) :
    getVC (setVariantCode codes k v c) k =
      (match v with
       | .NORMAL => { getVC codes k with normal := some c }
       | .PRINCIPAL => { getVC codes k with principal := some c }) := by
  unfold getVC setVariantCode
  rw [alist_get_update_self]
  cases v <;> rfl

theorem getVC_setVariantCode_other (codes : List (List Char × VariantCodes))
    {k k' : List Char} (v : RoleVariant) (c : Nat) (h : k ≠ k') :
    getVC (setVariantCode codes k v c) k' = getVC codes k' := by
  unfold getVC setVariantCode
  rw [alist_get_update_other _ _ _ _ _ h]

/-- The NORMAL half only touches the codes entry of its own role key. -/
theorem processRoleNormal_codes_other (existing : List (List Char × Nat)) (acc : SyncAcc)
    (rn : List Char) (d : RoleData) {k : List Char} (h : rn ≠ k) :
    getVC (processRoleNormal existing acc rn d).codes k = getVC acc.codes k := by
  unfold processRoleNormal
  by_cases hn : d.normal = true
  · rw [if_pos hn]
    cases alist_get existing (normalize d.eng) with
    | some c => simp [getVC_setVariantCode_other _ _ _ h]
    | none => simp
  · rw [Bool.not_eq_true] at hn
    rw [if_neg (by simp [hn])]

/-- The PRINCIPAL half only touches the codes entry of its own role key. -/
theorem processRolePrincipal_codes_other (existing : List (List Char × Nat)) (acc : SyncAcc)
    (rn : List Char) (d : RoleData) {k : List Char} (h : rn ≠ k) :
    getVC (processRolePrincipal existing acc rn d).codes k = getVC acc.codes k := by
  unfold processRolePrincipal
  by_cases hp : d.principal = true
  · rw [if_pos hp]
    cases alist_get existing (normalize (prinPrefix ++ d.eng)) with
    | some c => simp [getVC_setVariantCode_other _ _ _ h]
    | none => simp
  · rw [Bool.not_eq_true] at hp
    rw [if_neg (by simp [hp])]

/-- processRole only touches the codes entry of its own role key. -/
theorem processRole_codes_other (existing : List (List Char × Nat)) (acc : SyncAcc)
    (rn : List Char) (d : RoleData) {k : List Char} (h : rn ≠ k) :
    getVC (processRole existing acc rn d).codes k = getVC acc.codes k := by
  unfold processRole
  rw [processRolePrincipal_codes_other _ _ _ _ h, processRoleNormal_codes_other _ _ _ _ h]

/-- Creates queued by the NORMAL half either pre-existed or carry the role key. -/
theorem processRoleNormal_creates (existing : List (List Char × Nat)) (acc : SyncAcc)
    (rn : List Char) (d : RoleData) :
    ∀ e ∈ (processRoleNormal existing acc rn d).creates, e ∈ acc.creates ∨ e.key = rn := by
  unfold processRoleNormal
  by_cases hn : d.normal = true
  · rw [if_pos hn]
    cases alist_get existing (normalize d.eng) with
    | some c => exact fun e he => Or.inl he
    | none =>
      intro e he
      simp only [List.mem_append, List.mem_singleton] at he
      rcases he with he | he
      · exact Or.inl he
      · subst he
        exact Or.inr rfl
  · rw [Bool.not_eq_true] at hn
    rw [if_neg (by simp [hn])]
    exact fun e he => Or.inl he

/-- Creates queued by the PRINCIPAL half either pre-existed or carry the role key. -/
theorem processRolePrincipal_creates (existing : List (List Char × Nat)) (acc : SyncAcc)
    (rn : List Char) (d : RoleData) :
    ∀ e ∈ (processRolePrincipal existing acc rn d).creates, e ∈ acc.creates ∨ e.key = rn := by
  unfold processRolePrincipal
  by_cases hp : d.principal = true
  · rw [if_pos hp]
    cases alist_get existing (normalize (prinPrefix ++ d.eng)) with
    | some c => exact fun e he => Or.inl he
    | none =>
      intro e he
      simp only [List.mem_append, List.mem_singleton] at he
      rcases he with he | he
      · exact Or.inl he
      · subst he
        exact Or.inr rfl
  · rw [Bool.not_eq_true] at hp
    rw [if_neg (by simp [hp])]
    exact fun e he => Or.inl he

/-- Creates queued by processRole either pre-existed or carry its role key. -/
theorem processRole_creates (existing : List (List Char × Nat)) (acc : SyncAcc)
    (rn : List Char) (d : RoleData) :
    ∀ e ∈ (processRole existing acc rn d).creates, e ∈ acc.creates ∨ e.key = rn := by
  intro e he
  rcases processRolePrincipal_creates existing _ rn d e he with he1 | he1
  · exact processRoleNormal_creates existing acc rn d e he1
  · exact Or.inr he1

/-- Creates queued by the PRINCIPAL half carry the PRINCIPAL variant. -/
theorem processRolePrincipal_creates_variant (existing : List (List Char × Nat))
    (acc : SyncAcc) (rn : List Char) (d : RoleData) :
    ∀ e ∈ (processRolePrincipal existing acc rn d).creates,
      e ∈ acc.creates ∨ (e.key = rn ∧ e.variant = .PRINCIPAL) := by
  unfold processRolePrincipal
  by_cases hp : d.principal = true
  · rw [if_pos hp]
    cases alist_get existing (normalize (prinPrefix ++ d.eng)) with
    | some c => exact fun e he => Or.inl he
    | none =>
      intro e he
      simp only [List.mem_append, List.mem_singleton] at he
      rcases he with he | he
      · exact Or.inl he
      · subst he
        exact Or.inr ⟨rfl, rfl⟩
  · rw [Bool.not_eq_true] at hp
    rw [if_neg (by simp [hp])]
    exact fun e he => Or.inl he

/-- Both halves of processRole only ever extend the creates queue. -/
theorem processRoleNormal_creates_mono (existing : List (List Char × Nat)) (acc : SyncAcc)
    (rn : List Char) (d : RoleData) :
    ∀ e ∈ acc.creates, e ∈ (processRoleNormal existing acc rn d).creates := by
  unfold processRoleNormal
  by_cases hn : d.normal = true
  · rw [if_pos hn]
    cases alist_get existing (normalize d.eng) with
    | some c => exact fun e he => he
    | none => exact fun e he => List.mem_append_left _ he
  · rw [Bool.not_eq_true] at hn
    rw [if_neg (by simp [hn])]
    exact fun e he => he

theorem processRolePrincipal_creates_mono (existing : List (List Char × Nat)) (acc : SyncAcc)
    (rn : List Char) (d : RoleData) :
    ∀ e ∈ acc.creates, e ∈ (processRolePrincipal existing acc rn d).creates := by
  unfold processRolePrincipal
  by_cases hp : d.principal = true
  · rw [if_pos hp]
    cases alist_get existing (normalize (prinPrefix ++ d.eng)) with
    | some c => exact fun e he => he
    | none => exact fun e he => List.mem_append_left _ he
  · rw [Bool.not_eq_true] at hp
    rw [if_neg (by simp [hp])]
    exact fun e he => he

theorem processRole_creates_mono (existing : List (List Char × Nat)) (acc : SyncAcc)
    (rn : List Char) (d : RoleData) :
    ∀ e ∈ acc.creates, e ∈ (processRole existing acc rn d).creates :=
  fun e he => processRolePrincipal_creates_mono existing _ rn d e
    (processRoleNormal_creates_mono existing acc rn d e he)

/-- The PRINCIPAL half never changes the NORMAL field of any codes entry. -/
theorem processRolePrincipal_normal_field (existing : List (List Char × Nat))
    (acc : SyncAcc) (rn : List Char) (d : RoleData) (k : List Char) :
    (getVC (processRolePrincipal existing acc rn d).codes k).normal
      = (getVC acc.codes k).normal := by
  by_cases hk : rn = k
  · subst hk
    unfold processRolePrincipal
    by_cases hp : d.principal = true
    · rw [if_pos hp]
      cases alist_get existing (normalize (prinPrefix ++ d.eng)) with
      | some c =>
        show (getVC (setVariantCode acc.codes rn .PRINCIPAL c) rn).normal = _
        rw [getVC_setVariantCode_self]
      | none => rfl
    · rw [Bool.not_eq_true] at hp
      rw [if_neg (by simp [hp])]
  · rw [processRolePrincipal_codes_other _ _ _ _ hk]

/-- NORMAL-code reuse: when the normalized base label already has a code in
the grammar, the NORMAL half records that code and queues nothing. -/
theorem processRoleNormal_reuse (existing : List (List Char × Nat)) (acc : SyncAcc)
    (rn : List Char) (d : RoleData) (c : Nat)
    (hn : d.normal = true) (hc : alist_get existing (normalize d.eng) = some c) :
    (processRoleNormal existing acc rn d).codes = setVariantCode acc.codes rn .NORMAL c ∧
    (processRoleNormal existing acc rn d).creates = acc.creates := by
  unfold processRoleNormal
  rw [if_pos hn, hc]
  exact ⟨rfl, rfl⟩

/-- The PRINCIPAL half of a principal-flagged role either records a
PRINCIPAL code at once or queues a PRINCIPAL creation for it. -/
theorem processRolePrincipal_establishes (existing : List (List Char × Nat))
    (acc : SyncAcc) (rn : List Char) (d : RoleData) (hp : d.principal = true) :
    ((getVC (processRolePrincipal existing acc rn d).codes rn).principal).isSome = true ∨
    ∃ e ∈ (processRolePrincipal existing acc rn d).creates,
      e.key = rn ∧ e.variant = .PRINCIPAL := by
  unfold processRolePrincipal
  rw [if_pos hp]
  cases alist_get existing (normalize (prinPrefix ++ d.eng)) with
  | some c =>
    left
    show ((getVC (setVariantCode acc.codes rn .PRINCIPAL c) rn).principal).isSome = true
    rw [getVC_setVariantCode_self]
    rfl
  | none =>
    right
    exact ⟨⟨prinPrefix ++ d.eng, prinPrefix ++ d.fra, rn, .PRINCIPAL⟩,
      List.mem_append_right _ (List.mem_singleton_self _), rfl, rfl⟩

/- ===== The per-event fold of update_tmg_structure ===== -/

/-- Codes entries of roles not in the processed list are untouched. -/
theorem syncFold_codes_other (existing : List (List Char × Nat))
    (roles : List (List Char × RoleData)) (acc : SyncAcc) {k : List Char}
    (h : ∀ p ∈ roles, p.1 ≠ k) :
    getVC ((roles.foldl (fun a p => processRole existing a p.1 p.2) acc).codes) k
      = getVC acc.codes k := by
  induction roles generalizing acc with
  | nil => rfl
  | cons p t ih =>
    rw [List.foldl_cons]
    rw [ih _ (fun q hq => h q (List.mem_cons_of_mem p hq))]
    exact processRole_codes_other existing acc p.1 p.2 (h p (List.mem_cons_self p t))

/-- Creates produced by the fold come from the processed roles. -/
theorem syncFold_creates (existing : List (List Char × Nat))
    (roles : List (List Char × RoleData)) (acc : SyncAcc) :
    ∀ e ∈ (roles.foldl (fun a p => processRole existing a p.1 p.2) acc).creates,
      e ∈ acc.creates ∨ e.key ∈ roles.map Prod.fst := by
  induction roles generalizing acc with
  | nil => exact fun e he => Or.inl he
  | cons p t ih =>
    intro e he
    rw [List.foldl_cons] at he
    rcases ih (processRole existing acc p.1 p.2) e he with he1 | he1
    · rcases processRole_creates existing acc p.1 p.2 e he1 with he2 | he2
      · exact Or.inl he2
      · exact Or.inr (by rw [List.map_cons, he2] ; exact List.mem_cons_self _ _)
    · exact Or.inr (List.mem_cons_of_mem _ he1)

/-- The fold only ever extends the creates queue. -/
theorem syncFold_creates_mono (existing : List (List Char × Nat))
    (roles : List (List Char × RoleData)) (acc : SyncAcc) :
    ∀ e ∈ acc.creates,
      e ∈ (roles.foldl (fun a p => processRole existing a p.1 p.2) acc).creates := by
  induction roles generalizing acc with
  | nil => exact fun e he => he
  | cons p t ih =>
    intro e he
    rw [List.foldl_cons]
    exact ih _ e (processRole_creates_mono existing acc p.1 p.2 e he)

/-- Folding over roles with other keys preserves an established NORMAL code
and the absence of NORMAL creates for this key. -/
theorem syncFold_preserves_normal (existing : List (List Char × Nat))
    (roles : List (List Char × RoleData)) (acc : SyncAcc) (rn : List Char) (c : Nat)
    (hks : ∀ p ∈ roles, p.1 ≠ rn)
    (h1 : (getVC acc.codes rn).normal = some c)
    (h2 : ∀ e ∈ acc.creates, e.key = rn → e.variant = .PRINCIPAL) :
    (getVC ((roles.foldl (fun a p => processRole existing a p.1 p.2) acc).codes) rn).normal
      = some c ∧
    ∀ e ∈ (roles.foldl (fun a p => processRole existing a p.1 p.2) acc).creates,
      e.key = rn → e.variant = .PRINCIPAL := by
  constructor
  · rw [syncFold_codes_other existing roles acc hks]
    exact h1
  · intro e he hk
    rcases syncFold_creates existing roles acc e he with he1 | he1
    · exact h2 e he1 hk
    · rw [hk] at he1
      rw [List.mem_map] at he1
      obtain ⟨p, hp, hpk⟩ := he1
      exact absurd hpk (hks p hp)

/-- Folding over roles with other keys preserves principal-pending status. -/
theorem syncFold_preserves_principal (existing : List (List Char × Nat))
    (roles : List (List Char × RoleData)) (acc : SyncAcc) (rn : List Char)
    (hks : ∀ p ∈ roles, p.1 ≠ rn)
    (h : ((getVC acc.codes rn).principal).isSome = true ∨
      ∃ e ∈ acc.creates, e.key = rn ∧ e.variant = .PRINCIPAL) :
    ((getVC ((roles.foldl (fun a p => processRole existing a p.1 p.2) acc).codes) rn).principal).isSome = true ∨
    ∃ e ∈ (roles.foldl (fun a p => processRole existing a p.1 p.2) acc).creates,
      e.key = rn ∧ e.variant = .PRINCIPAL := by
  rcases h with h | ⟨e, he, hk, hv⟩
  · left
    rw [syncFold_codes_other existing roles acc hks]
    exact h
  · right
    exact ⟨e, syncFold_creates_mono existing roles acc e he, hk, hv⟩

/- ===== The id-assignment loop ===== -/

/-- The codes component of the fold is independent of the block accumulator. -/
theorem foldl_assignStep_codes : ∀ (es : List CreateEntry) (c : Nat)
    (acc : GrammarBlocks) (cds : List (List Char × VariantCodes)),
    (es.foldl assignStep (c, acc, cds)).2.2 = (assignIds c es cds).2 := by
  intro es
  induction es with
  | nil => intro c acc cds ; rfl
  | cons e t ih =>
    intro c acc cds
    rw [List.foldl_cons]
    show (t.foldl assignStep
      (c + 1, acc ++ [(c + 1, [e.eng, e.fra])], setVariantCode cds e.key e.variant (c + 1))).2.2 = _
    rw [ih]
    show _ = (List.foldl assignStep (assignStep (c, [], cds) e) t).2.2
    show _ = (t.foldl assignStep
      (c + 1, [] ++ [(c + 1, [e.eng, e.fra])], setVariantCode cds e.key e.variant (c + 1))).2.2
    rw [ih]

/-- Unfolding one step of `assignIds` on the codes side. -/
theorem assignIds_codes_cons (e : CreateEntry) (es : List CreateEntry) (m : Nat)
    (cds : List (List Char × VariantCodes)) :
    (assignIds m (e :: es) cds).2
      = (assignIds (m + 1) es (setVariantCode cds e.key e.variant (m + 1))).2 := by
  show (List.foldl assignStep (assignStep (m, [], cds) e) es).2.2 = _
  exact foldl_assignStep_codes es (m + 1) _ _

/-- Id assignment preserves an already-recorded NORMAL code when every
pending creation for this key is a PRINCIPAL one. -/
theorem assign_preserves_normal : ∀ (creates : List CreateEntry) (m : Nat)
    (codes : List (List Char × VariantCodes)) (rn : List Char) (c : Nat),
    (getVC codes rn).normal = some c →
    (∀ e ∈ creates, e.key = rn → e.variant = .PRINCIPAL) →
    (getVC (assignIds m creates codes).2 rn).normal = some c := by
  intro creates
  induction creates with
  | nil => intro m codes rn c h1 _ ; exact h1
  | cons e t ih =>
    intro m codes rn c h1 h2
    rw [assignIds_codes_cons]
    apply ih
    · by_cases hk : e.key = rn
      · have hv : e.variant = .PRINCIPAL := h2 e (List.mem_cons_self e t) hk
        rw [hk]
        rw [getVC_setVariantCode_self, hv]
        exact h1
      · rw [getVC_setVariantCode_other _ _ _ hk]
        exact h1
    · exact fun e' he' hk' => h2 e' (List.mem_cons_of_mem e he') hk'

/-- Id assignment preserves the presence of a PRINCIPAL code. -/
theorem assign_preserves_principal : ∀ (creates : List CreateEntry) (m : Nat)
    (codes : List (List Char × VariantCodes)) (rn : List Char),
    ((getVC codes rn).principal).isSome = true →
    ((getVC (assignIds m creates codes).2 rn).principal).isSome = true := by
  intro creates
  induction creates with
  | nil => intro m codes rn h ; exact h
  | cons e t ih =>
    intro m codes rn h
    rw [assignIds_codes_cons]
    apply ih
    by_cases hk : e.key = rn
    · rw [hk, getVC_setVariantCode_self]
      cases hv : e.variant
      · exact h
      · rfl
    · rw [getVC_setVariantCode_other _ _ _ hk]
      exact h

/-- Id assignment turns pending PRINCIPAL creations into recorded codes. -/
theorem assign_resolves_principal : ∀ (creates : List CreateEntry) (m : Nat)
    (codes : List (List Char × VariantCodes)) (rn : List Char),
    (((getVC codes rn).principal).isSome = true ∨
      ∃ e ∈ creates, e.key = rn ∧ e.variant = .PRINCIPAL) →
    ((getVC (assignIds m creates codes).2 rn).principal).isSome = true := by
  intro creates
  induction creates with
  | nil =>
    intro m codes rn h
    rcases h with h | ⟨e, he, _, _⟩
    · exact h
    · exact absurd he (List.not_mem_nil e)
  | cons e t ih =>
    intro m codes rn h
    rw [assignIds_codes_cons]
    apply ih
    rcases h with h | ⟨e', he', hk', hv'⟩
    · left
      by_cases hk : e.key = rn
      · rw [hk, getVC_setVariantCode_self]
        cases e.variant
        · exact h
        · rfl
      · rw [getVC_setVariantCode_other _ _ _ hk]
        exact h
    · rcases List.mem_cons.mp he' with rfl | he''
      · left
        rw [hk', hv', getVC_setVariantCode_self]
        rfl
      · right
        exact ⟨e', he'', hk', hv'⟩

/-- The block list built by the fold is the accumulator followed by the
blocks built from an empty accumulator. -/
theorem foldl_assignStep_blocks : ∀ (es : List CreateEntry) (c : Nat)
    (acc : GrammarBlocks) (cds : List (List Char × VariantCodes)),
    (es.foldl assignStep (c, acc, cds)).2.1
      = acc ++ (es.foldl assignStep (c, [], cds)).2.1 := by
  intro es
  induction es with
  | nil => intro c acc cds ; simp
  | cons e t ih =>
    intro c acc cds
    rw [List.foldl_cons, List.foldl_cons]
    show (t.foldl assignStep
        (c + 1, acc ++ [(c + 1, [e.eng, e.fra])], setVariantCode cds e.key e.variant (c + 1))).2.1
      = acc ++ (t.foldl assignStep
        (c + 1, [] ++ [(c + 1, [e.eng, e.fra])], setVariantCode cds e.key e.variant (c + 1))).2.1
    rw [ih, ih (c + 1) ([] ++ [(c + 1, [e.eng, e.fra])])]
    simp

/-- One-step unfolding of `assignIds` on the blocks side. -/
theorem assignIds_blocks_cons (e : CreateEntry) (es : List CreateEntry) (m : Nat)
    (cds : List (List Char × VariantCodes)) :
    (assignIds m (e :: es) cds).1
      = (m + 1, [e.eng, e.fra]) ::
        (assignIds (m + 1) es (setVariantCode cds e.key e.variant (m + 1))).1 := by
  show (List.foldl assignStep (assignStep (m, [], cds) e) es).2.1 = _
  show (es.foldl assignStep
      (m + 1, [] ++ [(m + 1, [e.eng, e.fra])], setVariantCode cds e.key e.variant (m + 1))).2.1 = _
  rw [foldl_assignStep_blocks]
  rfl

/-- One block per queued creation. -/
theorem assignIds_blocks_length : ∀ (creates : List CreateEntry) (m : Nat)
    (cds : List (List Char × VariantCodes)),
    (assignIds m creates cds).1.length = creates.length := by
  intro creates
  induction creates with
  | nil => intro m cds ; rfl
  | cons e t ih =>
    intro m cds
    rw [assignIds_blocks_cons, List.length_cons, ih]
    rfl

/-- The freshly created blocks receive the role ids `max + 1, max + 2, ...`
in order: each allocation is the running maximum plus one, and the
allocation order is strictly increasing. -/
theorem assignIds_blocks_map_fst : ∀ (creates : List CreateEntry) (m : Nat)
    (cds : List (List Char × VariantCodes)),
    (assignIds m creates cds).1.map Prod.fst
      = (List.range creates.length).map (fun k => m + 1 + k) := by
  intro creates
  induction creates with
  | nil => intro m cds ; rfl
  | cons e t ih =>
    intro m cds
    rw [assignIds_blocks_cons, List.map_cons, ih]
    rw [List.length_cons, List.range_succ_eq_map, List.map_cons, List.map_map]
    congr 1
    apply List.map_congr_left
    intro k _
    show m + 1 + 1 + k = m + 1 + (k + 1)
    omega

/-- Every role id in a grammar is bounded by the running maximum. -/
theorem le_foldl_max : ∀ (l : GrammarBlocks) (a : Nat),
    a ≤ l.foldl (fun m b => max m b.1) a := by
  intro l
  induction l with
  | nil => intro a ; exact Nat.le_refl a
  | cons b t ih =>
    intro a
    exact Nat.le_trans (Nat.le_max_left a b.1) (ih (max a b.1))

theorem mem_le_foldl_max : ∀ (l : GrammarBlocks) (a : Nat) (b : Nat × List (List Char)),
    b ∈ l → b.1 ≤ l.foldl (fun m b => max m b.1) a := by
  intro l
  induction l with
  | nil => intro a b hb ; exact absurd hb (List.not_mem_nil b)
  | cons hd t ih =>
    intro a b hb
    rcases List.mem_cons.mp hb with rfl | hb
    · exact Nat.le_trans (Nat.le_max_right a b.1) (le_foldl_max t (max a b.1))
    · exact ih (max a hd.1) b hb

theorem mem_le_maxRoleId {blocks : GrammarBlocks} {b : Nat × List (List Char)}
    (hb : b ∈ blocks) : b.1 ≤ maxRoleId blocks :=
  mem_le_foldl_max blocks 0 b hb

/-- Every fresh block id exceeds the starting maximum. -/
theorem assignIds_ids_gt (creates : List CreateEntry) (m : Nat)
    (cds : List (List Char × VariantCodes)) :
    ∀ x ∈ (assignIds m creates cds).1.map Prod.fst, m < x := by
  rw [assignIds_blocks_map_fst]
  intro x hx
  rw [List.mem_map] at hx
  obtain ⟨k, _, rfl⟩ := hx
  omega

/-- The fresh block ids are pairwise distinct. -/
theorem assignIds_ids_nodup (creates : List CreateEntry) (m : Nat)
    (cds : List (List Char × VariantCodes)) :
    ((assignIds m creates cds).1.map Prod.fst).Nodup := by
  rw [assignIds_blocks_map_fst]
  apply List.Nodup.map
  · intro a b hab
    have h : m + 1 + a = m + 1 + b := hab
    omega
  · exact List.nodup_range _

/-- syncEvent decomposed through `syncAccOf` and `assignIds`. -/
theorem syncEvent_blocks_eq (ename : List Char) (blocks : GrammarBlocks)
    (ru : List (List Char × RoleData)) :
    (syncEvent ename blocks ru).blocks
      = blocks ++ (assignIds (maxRoleId blocks) (syncAccOf ename blocks ru).creates
          (syncAccOf ename blocks ru).codes).1 := rfl

theorem syncEvent_codes_eq (ename : List Char) (blocks : GrammarBlocks)
    (ru : List (List Char × RoleData)) :
    (syncEvent ename blocks ru).codes
      = (assignIds (maxRoleId blocks) (syncAccOf ename blocks ru).creates
          (syncAccOf ename blocks ru).codes).2 := rfl

/-- A full processRole step under NORMAL-code reuse: the reused code is
recorded at once and any creation it queues for this key is a PRINCIPAL one. -/
theorem processRole_reuse_normal (existing : List (List Char × Nat)) (acc : SyncAcc)
    (rn : List Char) (d : RoleData) (c : Nat) (hn : d.normal = true)
    (hc : alist_get existing (normalize d.eng) = some c) :
    (getVC (processRole existing acc rn d).codes rn).normal = some c ∧
    ∀ e ∈ (processRole existing acc rn d).creates,
      e ∈ acc.creates ∨ (e.key = rn ∧ e.variant = .PRINCIPAL) := by
  obtain ⟨hcodes, hcreates⟩ := processRoleNormal_reuse existing acc rn d c hn hc
  constructor
  · unfold processRole
    rw [processRolePrincipal_normal_field, hcodes, getVC_setVariantCode_self]
  · intro e he
    rcases processRolePrincipal_creates_variant existing _ rn d e he with he1 | he1
    · rw [hcreates] at he1
      exact Or.inl he1
    · exact Or.inr he1

/-- The key fact behind reuse: when the filtered role list has no duplicate
keys and the role's normalized base label already carries a code, the whole
per-event computation records exactly that code as the role's NORMAL code. -/
theorem syncAcc_normal_reuse (ename : List Char) (blocks : GrammarBlocks)
    (ru : List (List Char × RoleData)) (rn : List Char) (d : RoleData) (c : Nat)
    (hnd : (ru.map Prod.fst).Nodup) (hmem : (rn, d) ∈ ru) (hev : ename ∈ d.events)
    (hn : d.normal = true)
    (hc : alist_get (existingRolesOf blocks) (normalize d.eng) = some c) :
    (getVC (syncAccOf ename blocks ru).codes rn).normal = some c ∧
    ∀ e ∈ (syncAccOf ename blocks ru).creates, e.key = rn → e.variant = .PRINCIPAL := by
  have hfilter : (rn, d) ∈ ru.filter (fun p => ename ∈ p.2.events) := by
    rw [List.mem_filter]
    exact ⟨hmem, by simpa using hev⟩
  obtain ⟨l1, l2, hsplit⟩ := List.append_of_mem hfilter
  have hfnd : ((ru.filter (fun p => ename ∈ p.2.events)).map Prod.fst).Nodup :=
    hnd.sublist (List.Sublist.map Prod.fst (List.filter_sublist ru))
  rw [hsplit, List.map_append, List.map_cons, List.nodup_append] at hfnd
  obtain ⟨hnd1, hnd2, hdisj⟩ := hfnd
  have hl1 : ∀ p ∈ l1, p.1 ≠ rn := by
    intro p hp hpk
    exact hdisj (List.mem_map_of_mem Prod.fst hp)
      (by rw [hpk] ; exact List.mem_cons_self _ _)
  have hl2 : ∀ p ∈ l2, p.1 ≠ rn := by
    intro p hp hpk
    rw [List.nodup_cons] at hnd2
    have hmem2 : p.1 ∈ List.map Prod.fst l2 := List.mem_map_of_mem Prod.fst hp
    rw [hpk] at hmem2
    exact hnd2.1 hmem2
  unfold syncAccOf
  rw [hsplit, List.foldl_append, List.foldl_cons]
  dsimp only
  have hpre : ∀ e ∈ (l1.foldl (fun a p => processRole (existingRolesOf blocks) a p.1 p.2)
      (⟨[], [], false, false⟩ : SyncAcc)).creates, e.key ≠ rn := by
    intro e he hek
    rcases syncFold_creates (existingRolesOf blocks) l1 _ e he with he1 | he1
    · exact absurd he1 (List.not_mem_nil e)
    · rw [hek] at he1
      rw [List.mem_map] at he1
      obtain ⟨p, hp, hpk⟩ := he1
      exact hl1 p hp hpk
  obtain ⟨hn1, hcr⟩ := processRole_reuse_normal (existingRolesOf blocks)
    (l1.foldl (fun a p => processRole (existingRolesOf blocks) a p.1 p.2)
      ⟨[], [], false, false⟩) rn d c hn hc
  have hn2 : ∀ e ∈ (processRole (existingRolesOf blocks)
      (l1.foldl (fun a p => processRole (existingRolesOf blocks) a p.1 p.2)
        ⟨[], [], false, false⟩) rn d).creates, e.key = rn → e.variant = .PRINCIPAL := by
    intro e he hek
    rcases hcr e he with he1 | he1
    · exact absurd hek (hpre e he1)
    · exact he1.2
  exact syncFold_preserves_normal (existingRolesOf blocks) l2 _ rn c hl2 hn1 hn2

/-- C3: within one event-type's grammar, after the Schema Synchronizer runs,
the newly allocated role codes are `max + 1, max + 2, ...` in allocation
order — each new code is the current maximum code of the grammar plus one,
so allocation is strictly increasing; all role codes of the resulting
grammar are pairwise distinct (given the stored grammar's codes were); and a
role whose normalized base label already has a code in this grammar reuses
that code as its NORMAL code rather than receiving a new one. -/
theorem c3_role_code_allocation (ename : List Char) (blocks : GrammarBlocks)
    (ru : List (List Char × RoleData)) :
    (((syncEvent ename blocks ru).blocks.drop blocks.length).map Prod.fst
      = (List.range ((syncAccOf ename blocks ru).creates.length)).map
          (fun k => maxRoleId blocks + 1 + k)) ∧
    ((blocks.map Prod.fst).Nodup → ((syncEvent ename blocks ru).blocks.map Prod.fst).Nodup) ∧
    ((ru.map Prod.fst).Nodup → ∀ rn d c, (rn, d) ∈ ru → ename ∈ d.events →
      d.normal = true → alist_get (existingRolesOf blocks) (normalize d.eng) = some c →
      (getVC (syncEvent ename blocks ru).codes rn).normal = some c) := by
  have hdrop : (syncEvent ename blocks ru).blocks.drop blocks.length
      = (assignIds (maxRoleId blocks) (syncAccOf ename blocks ru).creates
          (syncAccOf ename blocks ru).codes).1 := by
    rw [syncEvent_blocks_eq]
    exact List.drop_left blocks _
  refine ⟨?_, ?_, ?_⟩
  · rw [hdrop]
    exact assignIds_blocks_map_fst _ _ _
  · intro hnd
    rw [syncEvent_blocks_eq, List.map_append, List.nodup_append]
    refine ⟨hnd, assignIds_ids_nodup _ _ _, ?_⟩
    intro a ha hb
    rw [List.mem_map] at ha
    obtain ⟨b1, hb1, rfl⟩ := ha
    have h1 : b1.1 ≤ maxRoleId blocks := mem_le_maxRoleId hb1
    have h2 : maxRoleId blocks < b1.1 := assignIds_ids_gt _ _ _ b1.1 hb
    omega
  · intro hnd rn d c hmem hev hn hc
    obtain ⟨hf1, hf2⟩ := syncAcc_normal_reuse ename blocks ru rn d c hnd hmem hev hn hc
    rw [syncEvent_codes_eq]
    exact assign_preserves_normal _ (maxRoleId blocks) _ rn c hf1 hf2

/-- Witness for C3: on the fixture grammar (one code, 1, labelled "Witness")
the run keeps all codes distinct, and the Seller role — whose base label is
"Witness" — reuses code 1 as its NORMAL code. -/
theorem c3_witness :
    ((syncEvent (String.toList "MARRIAGE") exBlocks exRu3).blocks.map Prod.fst).Nodup ∧
    (getVC (syncEvent (String.toList "MARRIAGE") exBlocks exRu3).codes
      (String.toList "SELLER")).normal = some 1 :=
  ⟨(c3_role_code_allocation (String.toList "MARRIAGE") exBlocks exRu3).2.1 (by decide),
   (c3_role_code_allocation (String.toList "MARRIAGE") exBlocks exRu3).2.2 (by decide)
     (String.toList "SELLER")
     ⟨true, false, String.toList "Witness", String.toList "Temoin",
      [String.toList "MARRIAGE"]⟩ 1
     (by decide) (by decide) (by decide) (by decide)⟩

/- ===== Classification scan lemmas (scan_role_usage) ===== -/

/-- bumpShar keeps an already-set principal flag set. -/
theorem bumpShar_preserves_principal (rdb : List (List Char × RoleLabels))
    (owner k : List Char) (sh : SharRef) (ru : List (List Char × RoleData))
    (rn : List Char)
    (h : ∃ d, alist_get ru rn = some d ∧ d.principal = true) :
    ∃ d, alist_get (bumpShar rdb owner k sh ru) rn = some d ∧ d.principal = true := by
  obtain ⟨d, hd, hp⟩ := h
  unfold bumpShar
  by_cases hk : normalize sh.role = rn
  · rw [hk, alist_get_update_self, hd]
    by_cases hself : sh.id = owner
    · exact ⟨_, rfl, by simp [hself]⟩
    · exact ⟨_, rfl, by simp [hself, hp]⟩
  · rw [alist_get_update_other _ _ _ _ _ hk]
    exact ⟨d, hd, hp⟩

/-- A self-referential `_SHAR` sets its role's principal flag. -/
theorem bumpShar_establishes_principal (rdb : List (List Char × RoleLabels))
    (owner k : List Char) (sh : SharRef) (ru : List (List Char × RoleData))
    (hself : sh.id = owner) :
    ∃ d, alist_get (bumpShar rdb owner k sh ru) (normalize sh.role) = some d ∧
      d.principal = true := by
  unfold bumpShar
  rw [alist_get_update_self]
  exact ⟨_, rfl, by simp [hself]⟩

/-- Folding `_analyze_role_usage` over one event's `_SHAR` list: an already
set principal flag stays set, and a self-reference in the list sets it. -/
theorem analyze_principal (rdb : List (List Char × RoleLabels)) :
    ∀ (shars : List SharRef) (owner k : List Char) (ru : List (List Char × RoleData))
      (rn : List Char),
    ((∃ d, alist_get ru rn = some d ∧ d.principal = true) ∨
      (∃ sh ∈ shars, normalize sh.role = rn ∧ sh.id = owner)) →
    ∃ d, alist_get (analyze_role_usage rdb owner k shars ru) rn = some d ∧
      d.principal = true := by
  intro shars
  induction shars with
  | nil =>
    intro owner k ru rn h
    rcases h with h | ⟨sh, hsh, _⟩
    · exact h
    · exact absurd hsh (List.not_mem_nil sh)
  | cons sh t ih =>
    intro owner k ru rn h
    show ∃ d, alist_get (analyze_role_usage rdb owner k t (bumpShar rdb owner k sh ru)) rn
        = some d ∧ d.principal = true
    rcases h with h | ⟨sh', hsh', hrn, hself⟩
    · exact ih owner k _ rn (Or.inl (bumpShar_preserves_principal rdb owner k sh ru rn h))
    · rcases List.mem_cons.mp hsh' with rfl | hsh''
      · refine ih owner k _ rn (Or.inl ?_)
        rw [← hrn]
        exact bumpShar_establishes_principal rdb owner k sh' ru hself
      · exact ih owner k _ rn (Or.inr ⟨sh', hsh'', hrn, hself⟩)

/-- Over the whole scan: a self-reference in any event sets and keeps the
role's global principal flag. -/
theorem scanFold_principal (rdb : List (List Char × RoleLabels)) :
    ∀ (evs : List ScanEvent) (ru : List (List Char × RoleData)) (rn : List Char),
    ((∃ d, alist_get ru rn = some d ∧ d.principal = true) ∨
      (∃ ev ∈ evs, ∃ sh ∈ ev.shars, normalize sh.role = rn ∧ sh.id = ev.owner)) →
    ∃ d, alist_get
        (evs.foldl (fun r ev => analyze_role_usage rdb ev.owner ev.key ev.shars r) ru) rn
      = some d ∧ d.principal = true := by
  intro evs
  induction evs with
  | nil =>
    intro ru rn h
    rcases h with h | ⟨ev, hev, _⟩
    · exact h
    · exact absurd hev (List.not_mem_nil ev)
  | cons ev t ih =>
    intro ru rn h
    rw [List.foldl_cons]
    rcases h with h | ⟨ev', hev', hsh⟩
    · exact ih _ rn (Or.inl (analyze_principal rdb ev.shars ev.owner ev.key ru rn (Or.inl h)))
    · rcases List.mem_cons.mp hev' with rfl | hev''
      · exact ih _ rn (Or.inl (analyze_principal rdb ev'.shars ev'.owner ev'.key ru rn (Or.inr hsh)))
      · exact ih _ rn (Or.inr ⟨ev', hev'', hsh⟩)

/-- bumpShar preserves distinctness of the role keys. -/
theorem bumpShar_nodup (rdb : List (List Char × RoleLabels)) (owner k : List Char)
    (sh : SharRef) {ru : List (List Char × RoleData)}
    (h : (ru.map Prod.fst).Nodup) :
    ((bumpShar rdb owner k sh ru).map Prod.fst).Nodup :=
  alist_update_nodup _ _ _ h

theorem analyze_nodup (rdb : List (List Char × RoleLabels)) :
    ∀ (shars : List SharRef) (owner k : List Char) {ru : List (List Char × RoleData)},
    (ru.map Prod.fst).Nodup →
    ((analyze_role_usage rdb owner k shars ru).map Prod.fst).Nodup := by
  intro shars
  induction shars with
  | nil => intro owner k ru h ; exact h
  | cons sh t ih =>
    intro owner k ru h
    exact ih owner k (bumpShar_nodup rdb owner k sh h)

/-- The scan's role-usage table has pairwise distinct role keys. -/
theorem scan_nodup (rdb : List (List Char × RoleLabels)) (evs : List ScanEvent) :
    ((scanRoleUsage rdb evs).map Prod.fst).Nodup := by
  unfold scanRoleUsage
  suffices h : ∀ (ru : List (List Char × RoleData)), (ru.map Prod.fst).Nodup →
      ((evs.foldl (fun r ev => analyze_role_usage rdb ev.owner ev.key ev.shars r) ru).map
        Prod.fst).Nodup by
    exact h [] List.nodup_nil
  induction evs with
  | nil => intro ru h ; exact h
  | cons ev t ih =>
    intro ru h
    rw [List.foldl_cons]
    exact ih _ (analyze_nodup rdb ev.shars ev.owner ev.key h)

/-- processRole records or queues a PRINCIPAL code for a principal role. -/
theorem processRole_establishes_principal (existing : List (List Char × Nat))
    (acc : SyncAcc) (rn : List Char) (d : RoleData) (hp : d.principal = true) :
    ((getVC (processRole existing acc rn d).codes rn).principal).isSome = true ∨
    ∃ e ∈ (processRole existing acc rn d).creates, e.key = rn ∧ e.variant = .PRINCIPAL := by
  unfold processRole
  exact processRolePrincipal_establishes existing _ rn d hp

/-- For every principal-flagged role and every event-type in its event set,
the per-event computation ends with a PRINCIPAL code recorded. -/
theorem syncAcc_principal (ename : List Char) (blocks : GrammarBlocks)
    (ru : List (List Char × RoleData)) (rn : List Char) (d : RoleData)
    (hnd : (ru.map Prod.fst).Nodup) (hmem : (rn, d) ∈ ru) (hev : ename ∈ d.events)
    (hp : d.principal = true) :
    ((getVC (syncAccOf ename blocks ru).codes rn).principal).isSome = true ∨
    ∃ e ∈ (syncAccOf ename blocks ru).creates, e.key = rn ∧ e.variant = .PRINCIPAL := by
  have hfilter : (rn, d) ∈ ru.filter (fun p => ename ∈ p.2.events) := by
    rw [List.mem_filter]
    exact ⟨hmem, by simpa using hev⟩
  obtain ⟨l1, l2, hsplit⟩ := List.append_of_mem hfilter
  have hfnd : ((ru.filter (fun p => ename ∈ p.2.events)).map Prod.fst).Nodup :=
    hnd.sublist (List.Sublist.map Prod.fst (List.filter_sublist ru))
  rw [hsplit, List.map_append, List.map_cons, List.nodup_append] at hfnd
  obtain ⟨hnd1, hnd2, hdisj⟩ := hfnd
  have hl2 : ∀ p ∈ l2, p.1 ≠ rn := by
    intro p hp' hpk
    rw [List.nodup_cons] at hnd2
    have hmem2 : p.1 ∈ List.map Prod.fst l2 := List.mem_map_of_mem Prod.fst hp'
    rw [hpk] at hmem2
    exact hnd2.1 hmem2
  unfold syncAccOf
  rw [hsplit, List.foldl_append, List.foldl_cons]
  dsimp only
  exact syncFold_preserves_principal (existingRolesOf blocks) l2 _ rn hl2
    (processRole_establishes_principal (existingRolesOf blocks) _ rn d hp)

/-- C8: RoleUsage flags are accumulated per normalized role text across all
event-types — a single self-reference anywhere marks the role principal in
the one global entry keyed by its normalized text — and consequently, for
every role marked used-as-principal, the Synchronizer allocates (or reuses)
a PRINCIPAL-variant code in every event-type whose key is in that role's
event set, even an event-type where the role was only ever used normally. -/
theorem c8_global_role_scoping (rdb : List (List Char × RoleLabels))
    (evs : List ScanEvent) (rn : List Char) :
    ((∃ ev ∈ evs, ∃ sh ∈ ev.shars, normalize sh.role = rn ∧ sh.id = ev.owner) →
      ∃ d, alist_get (scanRoleUsage rdb evs) rn = some d ∧ d.principal = true) ∧
    (∀ (e : List Char) (blocks : GrammarBlocks) (d : RoleData),
      alist_get (scanRoleUsage rdb evs) rn = some d → d.principal = true →
      e ∈ d.events →
      ((getVC (syncEvent e blocks (scanRoleUsage rdb evs)).codes rn).principal).isSome
        = true) := by
  constructor
  · intro h
    exact scanFold_principal rdb evs [] rn (Or.inr h)
  · intro e blocks d hd hp hev
    have hmem : (rn, d) ∈ scanRoleUsage rdb evs := alist_get_mem hd
    have h := syncAcc_principal e blocks (scanRoleUsage rdb evs) rn d
      (scan_nodup rdb evs) hmem hev hp
    rw [syncEvent_codes_eq]
    exact assign_resolves_principal _ (maxRoleId blocks) _ rn h

/-- Witness for C8: Buyer is a self-witness only on the Deed event, yet the
Marriage event-type — where Buyer was only used normally — also ends up with
a PRINCIPAL Buyer code. -/
theorem c8_witness :
    (∃ d, alist_get (scanRoleUsage exRolesDb exScanEvs) (String.toList "BUYER")
      = some d ∧ d.principal = true) ∧
    ((getVC (syncEvent (String.toList "MARRIAGE") exBlocks
        (scanRoleUsage exRolesDb exScanEvs)).codes
      (String.toList "BUYER")).principal).isSome = true :=
  ⟨(c8_global_role_scoping exRolesDb exScanEvs (String.toList "BUYER")).1 (by decide),
   (c8_global_role_scoping exRolesDb exScanEvs (String.toList "BUYER")).2
     (String.toList "MARRIAGE") exBlocks
     ⟨true, true, String.toList "Buyer", String.toList "Acheteur",
      [String.toList "DEED", String.toList "MARRIAGE"]⟩
     (by decide) (by decide) (by decide)⟩

/- ===== Injector lemmas (insert_single_witness / flush_event) ===== -/

/-- insert_single_witness in terms of its pure classification: errors leave
the state alone, a key already in the set skips, and otherwise exactly one
record is appended and the key is added. -/
theorem insert_spec (P : Params) (eid gnum p1 p2 : Nat) (w : WitRef) (st : InjState) :
    insert_single_witness P eid gnum p1 p2 w st =
      match classifyWit P eid gnum p1 p2 w with
      | none => (.error, st)
      | some k =>
        if k ∈ st.existing then (.skip, st)
        else ((if k.2.2.2 then Outcome.principal else Outcome.ok),
          ⟨st.table ++ [recordOf P eid gnum p1 p2 w st.table], k :: st.existing, st.stats⟩) := by
  unfold insert_single_witness classifyWit recordOf
  cases alist_get P.gedToPerno w.wit_ged with
  | none => rfl
  | some n =>
    cases n with
    | zero => rfl
    | succ m => rfl

/-- A classified reference carries its event record number and a non-zero
person id in its key. -/
theorem classifyWit_shape (P : Params) (eid g p1 p2 : Nat) (w : WitRef) (k : DedupKey)
    (hc : classifyWit P eid g p1 p2 w = some k) : k.1 = g ∧ k.2.1 ≠ 0 := by
  unfold classifyWit at hc
  cases hl : alist_get P.gedToPerno w.wit_ged with
  | none => rw [hl] at hc ; exact absurd hc (by simp)
  | some n =>
    cases n with
    | zero => rw [hl] at hc ; exact absurd hc (by simp)
    | succ m =>
      rw [hl] at hc
      obtain rfl : _ = k := by injection hc
      exact ⟨rfl, by simp⟩

/-- The record built for a resolved witness, written out field by field. -/
theorem recordOf_eq (P : Params) (eid g p1 p2 : Nat) (w : WitRef)
    (tbl : List WitnessRecord) (m : Nat)
    (hl : alist_get P.gedToPerno w.wit_ged = some (m + 1)) :
    recordOf P eid g p1 p2 w tbl =
      ⟨m + 1, g, P.dsid, maxSeqFor tbl g + 1,
       ((m + 1 == p1) || ((p2 != 0) && (m + 1 == p2))),
       formatRole05 (chooseCode (getVC (lookupCodes P.roleCodes eid) (normalize w.role))
         (getVC (lookupCodes P.roleCodes eid) witnessKey)
         ((m + 1 == p1) || ((p2 != 0) && (m + 1 == p2)))).1,
       (if (chooseCode (getVC (lookupCodes P.roleCodes eid) (normalize w.role))
            (getVC (lookupCodes P.roleCodes eid) witnessKey)
            ((m + 1 == p1) || ((p2 != 0) && (m + 1 == p2)))).2 then
          '[' :: ((getRoleLabels P.rolesDb (normalize w.role) w.role).eng ++
            (']' :: ' ' :: w.note))
        else w.note).take 60000⟩ := by
  unfold recordOf
  rw [hl]

/-- The classification key of a resolved witness, written out. -/
theorem classifyWit_eq (P : Params) (eid g p1 p2 : Nat) (w : WitRef) (m : Nat)
    (hl : alist_get P.gedToPerno w.wit_ged = some (m + 1)) :
    classifyWit P eid g p1 p2 w =
      some (g, m + 1,
        normalize_role_id (.str (formatRole05
          (chooseCode (getVC (lookupCodes P.roleCodes eid) (normalize w.role))
            (getVC (lookupCodes P.roleCodes eid) witnessKey)
            ((m + 1 == p1) || ((p2 != 0) && (m + 1 == p2)))).1)),
        ((m + 1 == p1) || ((p2 != 0) && (m + 1 == p2)))) := by
  unfold classifyWit
  rw [hl]

/-- Appending the record of a classified reference adds exactly its dedup
key to the loaded key set. -/
theorem existingFromTable_append_record (P : Params) (eid g p1 p2 : Nat) (w : WitRef)
    (tbl tbl2 : List WitnessRecord) (k : DedupKey) (hg : g ≠ 0)
    (hc : classifyWit P eid g p1 p2 w = some k) :
    existingFromTable (tbl2 ++ [recordOf P eid g p1 p2 w tbl])
      = existingFromTable tbl2 ++ [k] := by
  unfold existingFromTable
  rw [List.filterMap_append]
  congr 1
  cases hl : alist_get P.gedToPerno w.wit_ged with
  | none =>
    unfold classifyWit at hc
    rw [hl] at hc
    exact absurd hc (by simp)
  | some n =>
    cases n with
    | zero =>
      unfold classifyWit at hc
      rw [hl] at hc
      exact absurd hc (by simp)
    | succ m =>
      rw [classifyWit_eq P eid g p1 p2 w m hl] at hc
      obtain rfl : _ = k := by injection hc
      rw [recordOf_eq P eid g p1 p2 w tbl m hl]
      simp only [List.filterMap_cons, List.filterMap_nil]
      rw [if_pos ⟨hg, by simp⟩]

/-- Python-truthiness case split for optional codes. -/
theorem truthy_false_cases {o : Option Nat} (h : truthy o = false) :
    o = none ∨ o = some 0 := by
  cases o with
  | none => exact Or.inl rfl
  | some n =>
    cases n with
    | zero => exact Or.inr rfl
    | succ m => exact absurd h (by simp [truthy])

/-- The role's own truthy required-variant code always wins. -/
theorem chooseCode_hit {rm wm : VariantCodes} {isSelf : Bool} {c : Nat}
    (h : (if isSelf then rm.principal else rm.normal) = some (c + 1)) :
    chooseCode rm wm isSelf = (c + 1, false) := by
  unfold chooseCode
  rw [h]

/-- With the required variant falsy, the same-category Witness code is used. -/
theorem chooseCode_fb1 {rm wm : VariantCodes} {isSelf : Bool} {c : Nat}
    (h : truthy (if isSelf then rm.principal else rm.normal) = false)
    (h2 : (if isSelf then wm.principal else wm.normal) = some (c + 1)) :
    chooseCode rm wm isSelf = (c + 1, true) := by
  unfold chooseCode
  rcases truthy_false_cases h with h1 | h1 <;> rw [h1] <;>
    cases isSelf <;> simp_all [pyOr, truthy]

/-- With both the role's and the same-category Witness code falsy, the
other-variant Witness code is used. -/
theorem chooseCode_fb2 {rm wm : VariantCodes} {isSelf : Bool} {c : Nat}
    (h : truthy (if isSelf then rm.principal else rm.normal) = false)
    (h2 : truthy (if isSelf then wm.principal else wm.normal) = false)
    (h3 : (if isSelf then wm.normal else wm.principal) = some (c + 1)) :
    chooseCode rm wm isSelf = (c + 1, true) := by
  unfold chooseCode
  rcases truthy_false_cases h with h1 | h1 <;> rw [h1] <;>
    cases isSelf <;> simp_all [pyOr, truthy]

/-- With every lookup falsy, the fixed default code 2 is used. -/
theorem chooseCode_default {rm wm : VariantCodes} {isSelf : Bool}
    (h : truthy (if isSelf then rm.principal else rm.normal) = false)
    (h2 : truthy (if isSelf then wm.principal else wm.normal) = false)
    (h3 : truthy (if isSelf then wm.normal else wm.principal) = false) :
    chooseCode rm wm isSelf = (2, true) := by
  unfold chooseCode
  rcases truthy_false_cases h with h1 | h1 <;> rw [h1] <;>
    cases isSelf <;>
      · simp only [Bool.false_eq_true, if_false, if_true] at h2 h3 ⊢
        rcases truthy_false_cases h2 with h4 | h4 <;>
          rcases truthy_false_cases h3 with h5 | h5 <;>
            simp_all [pyOr, truthy]

/-- flush_event in terms of the pure control-flow mirror `jobPhase`. -/
theorem flush_spec (P : Params) (pper : Nat) (ctx : EvtCtx) (st : InjState) :
    flush_event P pper ctx st =
      match jobPhase P pper ctx with
      | .inactive => st
      | .noTarget => { st with stats := addErrors st.stats ctx.witnesses.length }
      | .target eid g p1 p2 => ctx.witnesses.foldl (insertLoopStep P eid g p1 p2) st := by
  unfold flush_event jobPhase
  cases ctx.eid with
  | none => rfl
  | some n =>
    cases n with
    | zero => rfl
    | succ e =>
      dsimp only
      by_cases hw : ctx.witnesses = []
      · rw [if_pos hw, if_pos hw]
      · rw [if_neg hw, if_neg hw]
        cases hsel : selectTarget (yGedOf ctx.date)
            ((alist_get P.eventsIndex (pper, e + 1)).getD []) with
        | none => rfl
        | some cand =>
          dsimp only
          by_cases hr : cand.recno = 0
          · rw [if_pos hr, if_pos hr]
          · rw [if_neg hr, if_neg hr]
            cases hf : ((alist_get P.eventsIndex (pper, e + 1)).getD []).find?
                (fun d => d.recno == cand.recno) with
            | none => rfl
            | some dd => rfl

/-- A target phase always carries a non-zero event record number. -/
theorem jobPhase_target_gnum_ne (P : Params) (pper : Nat) (ctx : EvtCtx)
    (eid g p1 p2 : Nat) (h : jobPhase P pper ctx = .target eid g p1 p2) : g ≠ 0 := by
  unfold jobPhase at h
  cases heid : ctx.eid with
  | none => rw [heid] at h ; exact absurd h (by simp)
  | some n =>
    rw [heid] at h
    cases n with
    | zero => exact absurd h (by simp)
    | succ e =>
      dsimp only at h
      by_cases hw : ctx.witnesses = []
      · rw [if_pos hw] at h
        exact absurd h (by simp)
      · rw [if_neg hw] at h
        cases hsel : selectTarget (yGedOf ctx.date)
            ((alist_get P.eventsIndex (pper, e + 1)).getD []) with
        | none => rw [hsel] at h ; exact absurd h (by simp)
        | some cand =>
          rw [hsel] at h
          dsimp only at h
          by_cases hr : cand.recno = 0
          · rw [if_pos hr] at h
            exact absurd h (by simp)
          · rw [if_neg hr] at h
            cases hf : ((alist_get P.eventsIndex (pper, e + 1)).getD []).find?
                (fun d => d.recno == cand.recno) with
            | none =>
              rw [hf] at h
              injection h with h1 h2 h3 h4
              rw [← h2]
              exact hr
            | some dd =>
              rw [hf] at h
              injection h with h1 h2 h3 h4
              rw [← h2]
              exact hr

/- ===== The witness loop ===== -/

/-- One loop step never removes a key from the in-memory set. -/
theorem insertLoopStep_existing_mono (P : Params) (eid g p1 p2 : Nat) (st : InjState)
    (w : WitRef) {k0 : DedupKey} (h : k0 ∈ st.existing) :
    k0 ∈ (insertLoopStep P eid g p1 p2 st w).existing := by
  unfold insertLoopStep
  rw [insert_spec]
  cases classifyWit P eid g p1 p2 w with
  | none => exact h
  | some k =>
    dsimp only
    by_cases hk : k ∈ st.existing
    · rw [if_pos hk]
      exact h
    · rw [if_neg hk]
      exact List.mem_cons_of_mem k h

/-- The loop never removes keys. -/
theorem loop_existing_mono (P : Params) (eid g p1 p2 : Nat) :
    ∀ (ws : List WitRef) (st : InjState) {k0 : DedupKey}, k0 ∈ st.existing →
    k0 ∈ (ws.foldl (insertLoopStep P eid g p1 p2) st).existing := by
  intro ws
  induction ws with
  | nil => intro st k0 h ; exact h
  | cons w t ih =>
    intro st k0 h
    rw [List.foldl_cons]
    exact ih _ (insertLoopStep_existing_mono P eid g p1 p2 st w h)

/-- After the loop, the key of every classified reference is in the set. -/
theorem loop_keys_in (P : Params) (eid g p1 p2 : Nat) :
    ∀ (ws : List WitRef) (st : InjState),
    ∀ k ∈ ws.filterMap (classifyWit P eid g p1 p2),
    k ∈ (ws.foldl (insertLoopStep P eid g p1 p2) st).existing := by
  intro ws
  induction ws with
  | nil => intro st k hk ; exact absurd hk (by simp)
  | cons w t ih =>
    intro st k hk
    rw [List.filterMap_cons] at hk
    rw [List.foldl_cons]
    cases hc : classifyWit P eid g p1 p2 w with
    | none =>
      rw [hc] at hk
      exact ih _ k hk
    | some k1 =>
      rw [hc] at hk
      rcases List.mem_cons.mp hk with rfl | hk2
      · apply loop_existing_mono
        unfold insertLoopStep
        rw [insert_spec, hc]
        dsimp only
        by_cases hm : k ∈ st.existing
        · rw [if_pos hm]
          exact hm
        · rw [if_neg hm]
          exact List.mem_cons_self _ _
      · exact ih _ k hk2

/-- When every classified key of the list is already in the set, the loop
mutates nothing: it only counts skips and errors. -/
theorem loop_dominated (P : Params) (eid g p1 p2 : Nat) :
    ∀ (ws : List WitRef) (st : InjState),
    (∀ k ∈ ws.filterMap (classifyWit P eid g p1 p2), k ∈ st.existing) →
    (ws.foldl (insertLoopStep P eid g p1 p2) st).table = st.table ∧
    (ws.foldl (insertLoopStep P eid g p1 p2) st).existing = st.existing ∧
    (ws.foldl (insertLoopStep P eid g p1 p2) st).stats.ok = st.stats.ok ∧
    (ws.foldl (insertLoopStep P eid g p1 p2) st).stats.principal = st.stats.principal ∧
    (ws.foldl (insertLoopStep P eid g p1 p2) st).stats.skip
      = st.stats.skip + ws.countP (fun w => (classifyWit P eid g p1 p2 w).isSome) ∧
    (ws.foldl (insertLoopStep P eid g p1 p2) st).stats.error
      = st.stats.error + ws.countP (fun w => (classifyWit P eid g p1 p2 w).isNone) := by
  intro ws
  induction ws with
  | nil =>
    intro st _
    refine ⟨rfl, rfl, rfl, rfl, by simp, by simp⟩
  | cons w t ih =>
    intro st hdom
    rw [List.foldl_cons]
    have hstep : insertLoopStep P eid g p1 p2 st w =
        match classifyWit P eid g p1 p2 w with
        | none => { st with stats := bump st.stats .error }
        | some _ => { st with stats := bump st.stats .skip } := by
      unfold insertLoopStep
      rw [insert_spec]
      cases hc : classifyWit P eid g p1 p2 w with
      | none => rfl
      | some k =>
        have hm : k ∈ st.existing := by
          apply hdom
          rw [List.filterMap_cons, hc]
          exact List.mem_cons_self _ _
        dsimp only
        rw [if_pos hm]
    cases hc : classifyWit P eid g p1 p2 w with
    | none =>
      rw [hc] at hstep
      rw [hstep]
      have hdom' : ∀ k ∈ t.filterMap (classifyWit P eid g p1 p2),
          k ∈ ({ st with stats := bump st.stats .error } : InjState).existing := by
        intro k hk
        apply hdom
        rw [List.filterMap_cons, hc]
        exact hk
      obtain ⟨h1, h2, h3, h4, h5, h6⟩ := ih _ hdom'
      refine ⟨h1, h2, h3, h4, ?_, ?_⟩
      · rw [h5]
        rw [List.countP_cons]
        simp [hc, bump]
      · rw [h6]
        rw [List.countP_cons]
        simp [hc, bump]
        omega
    | some k1 =>
      rw [hc] at hstep
      rw [hstep]
      have hdom' : ∀ k ∈ t.filterMap (classifyWit P eid g p1 p2),
          k ∈ ({ st with stats := bump st.stats .skip } : InjState).existing := by
        intro k hk
        apply hdom
        rw [List.filterMap_cons, hc]
        exact List.mem_cons_of_mem _ hk
      obtain ⟨h1, h2, h3, h4, h5, h6⟩ := ih _ hdom'
      refine ⟨h1, h2, h3, h4, ?_, ?_⟩
      · rw [h5]
        rw [List.countP_cons]
        simp [hc, bump]
        omega
      · rw [h6]
        rw [List.countP_cons]
        simp [hc, bump]

/-- Outcome accounting for the loop: every classified reference lands in
ok, principal, or skip; every unresolved one in error. -/
theorem loop_accounting (P : Params) (eid g p1 p2 : Nat) :
    ∀ (ws : List WitRef) (st : InjState),
    (ws.foldl (insertLoopStep P eid g p1 p2) st).stats.ok
        + (ws.foldl (insertLoopStep P eid g p1 p2) st).stats.principal
        + (ws.foldl (insertLoopStep P eid g p1 p2) st).stats.skip
      = st.stats.ok + st.stats.principal + st.stats.skip
        + ws.countP (fun w => (classifyWit P eid g p1 p2 w).isSome) ∧
    (ws.foldl (insertLoopStep P eid g p1 p2) st).stats.error
      = st.stats.error + ws.countP (fun w => (classifyWit P eid g p1 p2 w).isNone) := by
  intro ws
  induction ws with
  | nil => intro st ; exact ⟨by simp, by simp⟩
  | cons w t ih =>
    intro st
    rw [List.foldl_cons]
    obtain ⟨h1, h2⟩ := ih (insertLoopStep P eid g p1 p2 st w)
    have hstats : (insertLoopStep P eid g p1 p2 st w).stats
        = bump st.stats (insert_single_witness P eid g p1 p2 w st).1 := by
      unfold insertLoopStep
      cases hr : insert_single_witness P eid g p1 p2 w st with
      | mk o s2 =>
        have : s2.stats = st.stats := by
          have := insert_spec P eid g p1 p2 w st
          rw [hr] at this
          cases hc : classifyWit P eid g p1 p2 w with
          | none => rw [hc] at this ; injection this.symm with _ h ; rw [← h]
          | some k =>
            rw [hc] at this
            dsimp only at this
            by_cases hm : k ∈ st.existing
            · rw [if_pos hm] at this
              injection this.symm with _ h
              rw [← h]
            · rw [if_neg hm] at this
              injection this.symm with _ h
              rw [← h]
        dsimp only
        rw [this]
    constructor
    · rw [h1, hstats]
      rw [List.countP_cons]
      have hout := insert_spec P eid g p1 p2 w st
      cases hc : classifyWit P eid g p1 p2 w with
      | none =>
        rw [hc] at hout
        rw [hout]
        simp [bump, hc]
      | some k =>
        rw [hc] at hout
        dsimp only at hout
        by_cases hm : k ∈ st.existing
        · rw [if_pos hm] at hout
          rw [hout]
          simp [bump, hc]
          omega
        · rw [if_neg hm] at hout
          rw [hout]
          by_cases hs : k.2.2.2 = true
          · simp [bump, hc, hs]
            omega
          · rw [Bool.not_eq_true] at hs
            simp [bump, hc, hs]
            omega
    · rw [h2, hstats]
      rw [List.countP_cons]
      have hout := insert_spec P eid g p1 p2 w st
      cases hc : classifyWit P eid g p1 p2 w with
      | none =>
        rw [hc] at hout
        rw [hout]
        simp [bump, hc]
        omega
      | some k =>
        rw [hc] at hout
        dsimp only at hout
        by_cases hm : k ∈ st.existing
        · rw [if_pos hm] at hout
          rw [hout]
          simp [bump, hc]
        · rw [if_neg hm] at hout
          rw [hout]
          by_cases hs : k.2.2.2 = true
          · simp [bump, hc, hs]
          · rw [Bool.not_eq_true] at hs
            simp [bump, hc, hs]

/-- A classified reference has a resolved, non-zero witness person. -/
theorem classifyWit_some_lookup (P : Params) (eid g p1 p2 : Nat) (w : WitRef)
    (k : DedupKey) (hc : classifyWit P eid g p1 p2 w = some k) :
    ∃ m, alist_get P.gedToPerno w.wit_ged = some (m + 1) := by
  unfold classifyWit at hc
  cases hl : alist_get P.gedToPerno w.wit_ged with
  | none => rw [hl] at hc ; exact absurd hc (by simp)
  | some n =>
    cases n with
    | zero => rw [hl] at hc ; exact absurd hc (by simp)
    | succ m => exact ⟨m, rfl⟩

/-- One loop step either leaves the table alone or appends one record of
this event carrying the next sequence number. -/
theorem insertLoopStep_table (P : Params) (eid g p1 p2 : Nat) (st : InjState)
    (w : WitRef) :
    (insertLoopStep P eid g p1 p2 st w).table = st.table ∨
    ∃ r, (insertLoopStep P eid g p1 p2 st w).table = st.table ++ [r] ∧
      r.gnum = g ∧ r.sequence = maxSeqFor st.table g + 1 := by
  unfold insertLoopStep
  rw [insert_spec]
  cases hc : classifyWit P eid g p1 p2 w with
  | none => exact Or.inl rfl
  | some k =>
    dsimp only
    by_cases hm : k ∈ st.existing
    · rw [if_pos hm]
      exact Or.inl rfl
    · rw [if_neg hm]
      obtain ⟨m, hl⟩ := classifyWit_some_lookup P eid g p1 p2 w k hc
      refine Or.inr ⟨recordOf P eid g p1 p2 w st.table, rfl, ?_, ?_⟩
      · rw [recordOf_eq P eid g p1 p2 w st.table m hl]
      · rw [recordOf_eq P eid g p1 p2 w st.table m hl]

/-- One loop step preserves the invariant that every in-memory key is
loadable from the table (given this event's record number is non-zero). -/
theorem insertLoopStep_inv (P : Params) (eid g p1 p2 : Nat) (st : InjState)
    (w : WitRef) (hg : g ≠ 0)
    (hinv : ∀ k ∈ st.existing, k ∈ existingFromTable st.table) :
    ∀ k ∈ (insertLoopStep P eid g p1 p2 st w).existing,
      k ∈ existingFromTable (insertLoopStep P eid g p1 p2 st w).table := by
  unfold insertLoopStep
  rw [insert_spec]
  cases hc : classifyWit P eid g p1 p2 w with
  | none => exact hinv
  | some k1 =>
    dsimp only
    by_cases hm : k1 ∈ st.existing
    · rw [if_pos hm]
      exact hinv
    · rw [if_neg hm]
      intro k hk
      dsimp only at hk ⊢
      rw [existingFromTable_append_record P eid g p1 p2 w st.table st.table k1 hg hc]
      rcases List.mem_cons.mp hk with rfl | hk2
      · exact List.mem_append_right _ (List.mem_singleton_self k)
      · exact List.mem_append_left _ (hinv k hk2)

/-- Loop version of the key-loadability invariant. -/
theorem loop_inv (P : Params) (eid g p1 p2 : Nat) (hg : g ≠ 0) :
    ∀ (ws : List WitRef) (st : InjState),
    (∀ k ∈ st.existing, k ∈ existingFromTable st.table) →
    ∀ k ∈ (ws.foldl (insertLoopStep P eid g p1 p2) st).existing,
      k ∈ existingFromTable (ws.foldl (insertLoopStep P eid g p1 p2) st).table := by
  intro ws
  induction ws with
  | nil => intro st hinv ; exact hinv
  | cons w t ih =>
    intro st hinv
    rw [List.foldl_cons]
    exact ih _ (insertLoopStep_inv P eid g p1 p2 st w hg hinv)

/-- Appending a record with the next sequence number preserves the
sequence invariant. -/
theorem seqInv_append {base : Nat} {tbl : List WitnessRecord} {r : WitnessRecord}
    (h : SeqInv base tbl) (hr : r.sequence = maxSeqFor tbl r.gnum + 1) :
    SeqInv base (tbl ++ [r]) := by
  intro j hbase hj
  rw [List.length_append, List.length_singleton] at hj
  by_cases hlt : j < tbl.length
  · rw [List.get_append j hlt]
    rw [List.take_append_of_le_length (Nat.le_of_lt hlt)]
    exact h j hbase hlt
  · have hje : j = tbl.length := by omega
    subst hje
    have hget : (tbl ++ [r]).get ⟨tbl.length, by simp⟩ = r := by
      simp [List.get_eq_getElem]
    rw [hget, List.take_left]
    exact hr

/-- One loop step preserves the sequence invariant. -/
theorem insertLoopStep_seqInv (P : Params) (eid g p1 p2 : Nat) (st : InjState)
    (w : WitRef) (base : Nat) (h : SeqInv base st.table) :
    SeqInv base (insertLoopStep P eid g p1 p2 st w).table := by
  rcases insertLoopStep_table P eid g p1 p2 st w with ht | ⟨r, ht, hg, hs⟩
  · rw [ht]
    exact h
  · rw [ht]
    exact seqInv_append h (by rw [hg] ; exact hs)

/-- Loop version of the sequence invariant. -/
theorem loop_seqInv (P : Params) (eid g p1 p2 : Nat) (base : Nat) :
    ∀ (ws : List WitRef) (st : InjState), SeqInv base st.table →
    SeqInv base ((ws.foldl (insertLoopStep P eid g p1 p2) st).table) := by
  intro ws
  induction ws with
  | nil => intro st h ; exact h
  | cons w t ih =>
    intro st h
    rw [List.foldl_cons]
    exact ih _ (insertLoopStep_seqInv P eid g p1 p2 st w base h)

/- ===== Flush- and run-level lemmas ===== -/

/-- flush_event never removes in-memory keys. -/
theorem flush_existing_mono (P : Params) (pper : Nat) (ctx : EvtCtx) (st : InjState)
    {k0 : DedupKey} (h : k0 ∈ st.existing) :
    k0 ∈ (flush_event P pper ctx st).existing := by
  rw [flush_spec]
  cases jobPhase P pper ctx with
  | inactive => exact h
  | noTarget => exact h
  | target eid g p1 p2 => exact loop_existing_mono P eid g p1 p2 ctx.witnesses st h

/-- After flush_event, every classified key of the job is in the set. -/
theorem flush_keys_in (P : Params) (pper : Nat) (ctx : EvtCtx) (st : InjState) :
    ∀ k ∈ jobKeys P pper ctx, k ∈ (flush_event P pper ctx st).existing := by
  rw [flush_spec]
  unfold jobKeys
  cases jobPhase P pper ctx with
  | inactive => intro k hk ; exact absurd hk (by simp)
  | noTarget => intro k hk ; exact absurd hk (by simp)
  | target eid g p1 p2 => exact loop_keys_in P eid g p1 p2 ctx.witnesses st

/-- flush_event under key domination: only skip and error counters move. -/
theorem flush_dominated (P : Params) (pper : Nat) (ctx : EvtCtx) (st : InjState)
    (hdom : ∀ k ∈ jobKeys P pper ctx, k ∈ st.existing) :
    (flush_event P pper ctx st).table = st.table ∧
    (flush_event P pper ctx st).existing = st.existing ∧
    (flush_event P pper ctx st).stats.ok = st.stats.ok ∧
    (flush_event P pper ctx st).stats.principal = st.stats.principal ∧
    (flush_event P pper ctx st).stats.skip = st.stats.skip + jobClassCount P pper ctx ∧
    (flush_event P pper ctx st).stats.error = st.stats.error + jobErrCount P pper ctx := by
  rw [flush_spec]
  unfold jobKeys at hdom
  unfold jobClassCount jobErrCount
  cases hp : jobPhase P pper ctx with
  | inactive => exact ⟨rfl, rfl, rfl, rfl, by simp, by simp⟩
  | noTarget => exact ⟨rfl, rfl, rfl, rfl, by simp [addErrors], by simp [addErrors]⟩
  | target eid g p1 p2 =>
    rw [hp] at hdom
    exact loop_dominated P eid g p1 p2 ctx.witnesses st hdom

/-- flush_event outcome accounting. -/
theorem flush_accounting (P : Params) (pper : Nat) (ctx : EvtCtx) (st : InjState) :
    (flush_event P pper ctx st).stats.ok + (flush_event P pper ctx st).stats.principal
        + (flush_event P pper ctx st).stats.skip
      = st.stats.ok + st.stats.principal + st.stats.skip + jobClassCount P pper ctx ∧
    (flush_event P pper ctx st).stats.error
      = st.stats.error + jobErrCount P pper ctx := by
  rw [flush_spec]
  unfold jobClassCount jobErrCount
  cases jobPhase P pper ctx with
  | inactive => exact ⟨by simp, by simp⟩
  | noTarget => exact ⟨by simp [addErrors], by simp [addErrors]⟩
  | target eid g p1 p2 => exact loop_accounting P eid g p1 p2 ctx.witnesses st

/-- flush_event preserves key loadability. -/
theorem flush_inv (P : Params) (pper : Nat) (ctx : EvtCtx) (st : InjState)
    (hinv : ∀ k ∈ st.existing, k ∈ existingFromTable st.table) :
    ∀ k ∈ (flush_event P pper ctx st).existing,
      k ∈ existingFromTable (flush_event P pper ctx st).table := by
  rw [flush_spec]
  cases hp : jobPhase P pper ctx with
  | inactive => exact hinv
  | noTarget => exact hinv
  | target eid g p1 p2 =>
    exact loop_inv P eid g p1 p2 (jobPhase_target_gnum_ne P pper ctx eid g p1 p2 hp)
      ctx.witnesses st hinv

/-- flush_event preserves the sequence invariant. -/
theorem flush_seqInv (P : Params) (pper : Nat) (ctx : EvtCtx) (st : InjState)
    (base : Nat) (h : SeqInv base st.table) :
    SeqInv base (flush_event P pper ctx st).table := by
  rw [flush_spec]
  cases jobPhase P pper ctx with
  | inactive => exact h
  | noTarget => exact h
  | target eid g p1 p2 => exact loop_seqInv P eid g p1 p2 base ctx.witnesses st h

/-- One step of the run. -/
theorem runJobs_cons (P : Params) (j0 : Nat × EvtCtx) (t : List (Nat × EvtCtx))
    (st : InjState) :
    runJobs P (j0 :: t) st = runJobs P t (flush_event P j0.1 j0.2 st) := rfl

/-- The run never removes in-memory keys. -/
theorem run_existing_mono (P : Params) :
    ∀ (jobs : List (Nat × EvtCtx)) (st : InjState) {k0 : DedupKey},
    k0 ∈ st.existing → k0 ∈ (runJobs P jobs st).existing := by
  intro jobs
  induction jobs with
  | nil => intro st k0 h ; exact h
  | cons j t ih =>
    intro st k0 h
    exact ih _ (flush_existing_mono P j.1 j.2 st h)

/-- After the run, the key of every classified reference of every job is in
the in-memory set. -/
theorem run_keys_in (P : Params) :
    ∀ (jobs : List (Nat × EvtCtx)) (st : InjState),
    ∀ j ∈ jobs, ∀ k ∈ jobKeys P j.1 j.2, k ∈ (runJobs P jobs st).existing := by
  intro jobs
  induction jobs with
  | nil => intro st j hj ; exact absurd hj (List.not_mem_nil j)
  | cons j0 t ih =>
    intro st j hj k hk
    rcases List.mem_cons.mp hj with rfl | hj2
    · exact run_existing_mono P t _ (flush_keys_in P j.1 j.2 st k hk)
    · exact ih _ j hj2 k hk

/-- The run under key domination: no mutation, only skips and errors. -/
theorem run_dominated (P : Params) :
    ∀ (jobs : List (Nat × EvtCtx)) (st : InjState),
    (∀ j ∈ jobs, ∀ k ∈ jobKeys P j.1 j.2, k ∈ st.existing) →
    (runJobs P jobs st).table = st.table ∧
    (runJobs P jobs st).existing = st.existing ∧
    (runJobs P jobs st).stats.ok = st.stats.ok ∧
    (runJobs P jobs st).stats.principal = st.stats.principal ∧
    (runJobs P jobs st).stats.skip
      = st.stats.skip + (jobs.map (fun j => jobClassCount P j.1 j.2)).sum ∧
    (runJobs P jobs st).stats.error
      = st.stats.error + (jobs.map (fun j => jobErrCount P j.1 j.2)).sum := by
  intro jobs
  induction jobs with
  | nil => intro st _ ; exact ⟨rfl, rfl, rfl, rfl, by simp [runJobs], by simp [runJobs]⟩
  | cons j0 t ih =>
    intro st hdom
    rw [runJobs_cons]
    obtain ⟨f1, f2, f3, f4, f5, f6⟩ :=
      flush_dominated P j0.1 j0.2 st (hdom j0 (List.mem_cons_self j0 t))
    have hdom' : ∀ j ∈ t, ∀ k ∈ jobKeys P j.1 j.2,
        k ∈ (flush_event P j0.1 j0.2 st).existing := by
      intro j hj k hk
      rw [f2]
      exact hdom j (List.mem_cons_of_mem j0 hj) k hk
    obtain ⟨g1, g2, g3, g4, g5, g6⟩ := ih (flush_event P j0.1 j0.2 st) hdom'
    refine ⟨by rw [g1, f1], by rw [g2, f2], by rw [g3, f3], by rw [g4, f4], ?_, ?_⟩
    · rw [g5, f5, List.map_cons, List.sum_cons]
      omega
    · rw [g6, f6, List.map_cons, List.sum_cons]
      omega

/-- Run-level outcome accounting. -/
theorem run_accounting (P : Params) :
    ∀ (jobs : List (Nat × EvtCtx)) (st : InjState),
    (runJobs P jobs st).stats.ok + (runJobs P jobs st).stats.principal
        + (runJobs P jobs st).stats.skip
      = st.stats.ok + st.stats.principal + st.stats.skip
        + (jobs.map (fun j => jobClassCount P j.1 j.2)).sum ∧
    (runJobs P jobs st).stats.error
      = st.stats.error + (jobs.map (fun j => jobErrCount P j.1 j.2)).sum := by
  intro jobs
  induction jobs with
  | nil => intro st ; exact ⟨by simp [runJobs], by simp [runJobs]⟩
  | cons j0 t ih =>
    intro st
    rw [runJobs_cons]
    obtain ⟨f1, f2⟩ := flush_accounting P j0.1 j0.2 st
    obtain ⟨g1, g2⟩ := ih (flush_event P j0.1 j0.2 st)
    refine ⟨?_, ?_⟩
    · rw [g1, List.map_cons, List.sum_cons]
      omega
    · rw [g2, f2, List.map_cons, List.sum_cons]
      omega

/-- The run preserves key loadability. -/
theorem run_inv (P : Params) :
    ∀ (jobs : List (Nat × EvtCtx)) (st : InjState),
    (∀ k ∈ st.existing, k ∈ existingFromTable st.table) →
    ∀ k ∈ (runJobs P jobs st).existing,
      k ∈ existingFromTable (runJobs P jobs st).table := by
  intro jobs
  induction jobs with
  | nil => intro st h ; exact h
  | cons j0 t ih =>
    intro st h
    exact ih _ (flush_inv P j0.1 j0.2 st h)

/-- The run preserves the sequence invariant. -/
theorem run_seqInv (P : Params) (base : Nat) :
    ∀ (jobs : List (Nat × EvtCtx)) (st : InjState),
    SeqInv base st.table → SeqInv base (runJobs P jobs st).table := by
  intro jobs
  induction jobs with
  | nil => intro st h ; exact h
  | cons j0 t ih =>
    intro st h
    exact ih _ (flush_seqInv P j0.1 j0.2 st base h)

/-- runEngine unfolded. -/
theorem runEngine_eq (P : Params) (jobs : List (Nat × EvtCtx)) (tbl : List WitnessRecord) :
    runEngine P jobs tbl
      = runJobs P jobs ⟨tbl, existingFromTable tbl, ⟨0, 0, 0, 0⟩⟩ := rfl

/-- C1: running the engine a second time on identical inputs over the
database state left by the first run injects nothing — zero new normal and
zero new principal records, the witness table unchanged — and every
reference that was injected or skipped on the first run is counted
skipped-duplicate on the second run (its 4-tuple dedup key is already in
the set loaded from the witness table), while errors repeat identically. -/
theorem c1_idempotence (P : Params) (jobs : List (Nat × EvtCtx))
    (tbl0 : List WitnessRecord) :
    (runEngine P jobs (runEngine P jobs tbl0).table).stats.ok = 0 ∧
    (runEngine P jobs (runEngine P jobs tbl0).table).stats.principal = 0 ∧
    (runEngine P jobs (runEngine P jobs tbl0).table).table
      = (runEngine P jobs tbl0).table ∧
    (runEngine P jobs (runEngine P jobs tbl0).table).stats.skip
      = (runEngine P jobs tbl0).stats.ok + (runEngine P jobs tbl0).stats.principal
        + (runEngine P jobs tbl0).stats.skip ∧
    (runEngine P jobs (runEngine P jobs tbl0).table).stats.error
      = (runEngine P jobs tbl0).stats.error := by
  simp only [runEngine_eq]
  have hinv1 : ∀ k ∈ (runJobs P jobs ⟨tbl0, existingFromTable tbl0, ⟨0, 0, 0, 0⟩⟩).existing,
      k ∈ existingFromTable
        (runJobs P jobs ⟨tbl0, existingFromTable tbl0, ⟨0, 0, 0, 0⟩⟩).table :=
    run_inv P jobs ⟨tbl0, existingFromTable tbl0, ⟨0, 0, 0, 0⟩⟩ (fun k hk => hk)
  have hdom : ∀ j ∈ jobs, ∀ k ∈ jobKeys P j.1 j.2,
      k ∈ (⟨(runJobs P jobs ⟨tbl0, existingFromTable tbl0, ⟨0, 0, 0, 0⟩⟩).table,
        existingFromTable
          (runJobs P jobs ⟨tbl0, existingFromTable tbl0, ⟨0, 0, 0, 0⟩⟩).table,
        ⟨0, 0, 0, 0⟩⟩ : InjState).existing := by
    intro j hj k hk
    exact hinv1 k (run_keys_in P jobs ⟨tbl0, existingFromTable tbl0, ⟨0, 0, 0, 0⟩⟩ j hj k hk)
  obtain ⟨d1, d2, d3, d4, d5, d6⟩ := run_dominated P jobs
    ⟨(runJobs P jobs ⟨tbl0, existingFromTable tbl0, ⟨0, 0, 0, 0⟩⟩).table,
      existingFromTable
        (runJobs P jobs ⟨tbl0, existingFromTable tbl0, ⟨0, 0, 0, 0⟩⟩).table,
      ⟨0, 0, 0, 0⟩⟩ hdom
  obtain ⟨a1, a2⟩ := run_accounting P jobs ⟨tbl0, existingFromTable tbl0, ⟨0, 0, 0, 0⟩⟩
  refine ⟨d3, d4, d1, ?_, ?_⟩
  · rw [d5]
    simp only at a1
    simp only
    omega
  · rw [d6]
    simp only at a2
    simp only
    omega

/-- The fold computing the maximum sequence only grows from its seed. -/
theorem le_maxSeqFor_init (g : Nat) : ∀ (l : List WitnessRecord) (a : Nat),
    a ≤ l.foldl (fun m r => if r.gnum = g ∧ m < r.sequence then r.sequence else m) a := by
  intro l
  induction l with
  | nil => intro a ; exact Nat.le_refl a
  | cons r t ih =>
    intro a
    refine Nat.le_trans ?_ (ih (if r.gnum = g ∧ a < r.sequence then r.sequence else a))
    by_cases hc : r.gnum = g ∧ a < r.sequence
    · rw [if_pos hc]
      exact Nat.le_of_lt hc.2
    · rw [if_neg hc]

/-- Every row of this event bounds the computed maximum from below. -/
theorem mem_le_maxSeqFor_general (g : Nat) : ∀ (l : List WitnessRecord) (a : Nat)
    (r : WitnessRecord), r ∈ l → r.gnum = g →
    r.sequence ≤ l.foldl (fun m r => if r.gnum = g ∧ m < r.sequence then r.sequence else m) a := by
  intro l
  induction l with
  | nil => intro a r hr ; exact absurd hr (List.not_mem_nil r)
  | cons r0 t ih =>
    intro a r hr hg
    rcases List.mem_cons.mp hr with rfl | hr2
    · rw [List.foldl_cons]
      by_cases hc : r.gnum = g ∧ a < r.sequence
      · rw [if_pos hc]
        exact le_maxSeqFor_init g t r.sequence
      · rw [if_neg hc]
        have : ¬ a < r.sequence := fun hlt => hc ⟨hg, hlt⟩
        exact Nat.le_trans (Nat.le_of_not_lt this) (le_maxSeqFor_init g t a)
    · rw [List.foldl_cons]
      exact ih _ r hr2 hg

theorem mem_le_maxSeqFor {tbl : List WitnessRecord} {r : WitnessRecord} {g : Nat}
    (hr : r ∈ tbl) (hg : r.gnum = g) : r.sequence ≤ maxSeqFor tbl g :=
  mem_le_maxSeqFor_general g tbl 0 r hr hg

/-- C4: for any event, each injected witness record receives the sequence
number equal to the maximum existing sequence among that event's witness
rows (at the moment of insertion, i.e. among the earlier rows of the final
table) plus one; consequently the sequence numbers of one event's rows
appended during the run are strictly greater than those of all earlier rows
of that event — strictly increasing across the run and never reused. -/
theorem c4_sequence_monotonicity (P : Params) (jobs : List (Nat × EvtCtx))
    (tbl0 : List WitnessRecord) :
    ∀ j, tbl0.length ≤ j → ∀ (hj : j < (runEngine P jobs tbl0).table.length),
      (((runEngine P jobs tbl0).table.get ⟨j, hj⟩).sequence
        = maxSeqFor ((runEngine P jobs tbl0).table.take j)
            (((runEngine P jobs tbl0).table.get ⟨j, hj⟩).gnum) + 1) ∧
      ∀ i (hij : i < j),
        ((runEngine P jobs tbl0).table.get ⟨i, Nat.lt_trans hij hj⟩).gnum
          = ((runEngine P jobs tbl0).table.get ⟨j, hj⟩).gnum →
        ((runEngine P jobs tbl0).table.get ⟨i, Nat.lt_trans hij hj⟩).sequence
          < ((runEngine P jobs tbl0).table.get ⟨j, hj⟩).sequence := by
  have hseq : SeqInv tbl0.length (runEngine P jobs tbl0).table := by
    rw [runEngine_eq]
    apply run_seqInv
    intro j hbase hj
    simp only at hj
    omega
  intro j hbase hj
  refine ⟨hseq j hbase hj, ?_⟩
  intro i hij hg
  have h1 := hseq j hbase hj
  have hi : i < (runEngine P jobs tbl0).table.length := Nat.lt_trans hij hj
  have hmem : (runEngine P jobs tbl0).table.get ⟨i, hi⟩
      ∈ (runEngine P jobs tbl0).table.take j := by
    have hit : i < ((runEngine P jobs tbl0).table.take j).length := by
      rw [List.length_take]
      omega
    have : ((runEngine P jobs tbl0).table.take j).get ⟨i, hit⟩
        = (runEngine P jobs tbl0).table.get ⟨i, hi⟩ := by
      simp [List.get_eq_getElem]
    rw [← this]
    exact List.get_mem _ i hit
  have hle := mem_le_maxSeqFor hmem hg
  rw [h1]
  omega

/-- Witness for C4: on the fixture run (two injections into event 100 over
an empty table) the second appended row gets sequence `max + 1` of the
earlier rows of its event, strictly above the first row's sequence. -/
theorem c4_witness :
    ∃ (hj : 1 < (runEngine exParams exJobs []).table.length)
      (hi : 0 < (runEngine exParams exJobs []).table.length),
      ((runEngine exParams exJobs []).table.get ⟨1, hj⟩).sequence
        = maxSeqFor ((runEngine exParams exJobs []).table.take 1)
            (((runEngine exParams exJobs []).table.get ⟨1, hj⟩).gnum) + 1 ∧
      ((runEngine exParams exJobs []).table.get ⟨0, hi⟩).sequence
        < ((runEngine exParams exJobs []).table.get ⟨1, hj⟩).sequence := by
  have hj : 1 < (runEngine exParams exJobs []).table.length := by decide
  have hi : 0 < (runEngine exParams exJobs []).table.length := by decide
  obtain ⟨h1, h2⟩ := c4_sequence_monotonicity exParams exJobs [] 1 (by decide) hj
  exact ⟨hj, hi, h1, h2 0 (by decide) (by rfl)⟩

/-- C9: a reference whose processing ends in error or skipped-duplicate
appends nothing to the witness table and adds nothing to the dedup set;
only a successful injection appends exactly one record and one key; and a
context with no matching event only bumps the error counter. -/
theorem c9_atomicity (P : Params) (eid g p1 p2 : Nat) (w : WitRef) (st : InjState) :
    (((insert_single_witness P eid g p1 p2 w st).1 = .error ∨
      (insert_single_witness P eid g p1 p2 w st).1 = .skip) →
      (insert_single_witness P eid g p1 p2 w st).2.table = st.table ∧
      (insert_single_witness P eid g p1 p2 w st).2.existing = st.existing) ∧
    (((insert_single_witness P eid g p1 p2 w st).1 = .ok ∨
      (insert_single_witness P eid g p1 p2 w st).1 = .principal) →
      ∃ r k, (insert_single_witness P eid g p1 p2 w st).2.table = st.table ++ [r] ∧
        (insert_single_witness P eid g p1 p2 w st).2.existing = k :: st.existing) ∧
    (∀ (pper : Nat) (ctx : EvtCtx), jobPhase P pper ctx = .noTarget →
      (flush_event P pper ctx st).table = st.table ∧
      (flush_event P pper ctx st).existing = st.existing ∧
      (flush_event P pper ctx st).stats
        = addErrors st.stats ctx.witnesses.length) := by
  refine ⟨?_, ?_, ?_⟩
  · intro hres
    rw [insert_spec] at hres ⊢
    cases hc : classifyWit P eid g p1 p2 w with
    | none => exact ⟨rfl, rfl⟩
    | some k =>
      rw [hc] at hres
      dsimp only at hres ⊢
      by_cases hm : k ∈ st.existing
      · rw [if_pos hm]
        exact ⟨rfl, rfl⟩
      · rw [if_neg hm] at hres
        dsimp only at hres
        rcases hres with hres | hres <;>
          · by_cases hs : k.2.2.2 = true <;> simp [hs] at hres
  · intro hres
    rw [insert_spec] at hres ⊢
    cases hc : classifyWit P eid g p1 p2 w with
    | none =>
      rw [hc] at hres
      dsimp only at hres
      rcases hres with hres | hres <;> exact absurd hres (by simp)
    | some k =>
      rw [hc] at hres
      dsimp only at hres ⊢
      by_cases hm : k ∈ st.existing
      · rw [if_pos hm] at hres
        dsimp only at hres
        rcases hres with hres | hres <;> exact absurd hres (by simp)
      · rw [if_neg hm]
        exact ⟨recordOf P eid g p1 p2 w st.table, k, rfl, rfl⟩
  · intro pper ctx hp
    rw [flush_spec, hp]
    exact ⟨rfl, rfl, rfl⟩

/-- Witness for C9: an unresolvable witness reference (empty person map)
returns error and leaves the table and the key set untouched. -/
theorem c9_witness :
    (insert_single_witness exParamsD 7 100 5 0
      ⟨String.toList "I9", String.toList "Buyer", []⟩ exSt0).2.table = exSt0.table ∧
    (insert_single_witness exParamsD 7 100 5 0
      ⟨String.toList "I9", String.toList "Buyer", []⟩ exSt0).2.existing
      = exSt0.existing :=
  (c9_atomicity exParamsD 7 100 5 0
    ⟨String.toList "I9", String.toList "Buyer", []⟩ exSt0).1 (Or.inl (by decide))

/-- C2 (amended): a resolved witness whose person id fills a participant
slot of the matched event is either skipped by the dedup guard or injected
with outcome `principal` and its PRIMARY flag set to true; its role code is
the role's PRINCIPAL-variant code whenever the synchronizer registered a
truthy one.  (The original claim's stronger clause — that the injected code
is always a PRINCIPAL-variant code — fails when no such code exists and the
fallback chain supplies a NORMAL or default code: see the counterexample.) -/
theorem c2_self_reference (P : Params) (eid g p1 p2 : Nat) (w : WitRef)
    (st : InjState) (m : Nat)
    (hl : alist_get P.gedToPerno w.wit_ged = some (m + 1))
    (hself : m + 1 = p1 ∨ (p2 ≠ 0 ∧ m + 1 = p2)) :
    ((insert_single_witness P eid g p1 p2 w st).1 = Outcome.skip ∧
      (insert_single_witness P eid g p1 p2 w st).2 = st) ∨
    ((insert_single_witness P eid g p1 p2 w st).1 = Outcome.principal ∧
      (insert_single_witness P eid g p1 p2 w st).2.table
        = st.table ++ [recordOf P eid g p1 p2 w st.table] ∧
      (recordOf P eid g p1 p2 w st.table).primary = true ∧
      ∀ c, (getVC (lookupCodes P.roleCodes eid) (normalize w.role)).principal
          = some (c + 1) →
        (recordOf P eid g p1 p2 w st.table).role = formatRole05 (c + 1)) := by
  have hs : ((m + 1 == p1) || ((p2 != 0) && (m + 1 == p2))) = true := by
    rcases hself with h | ⟨hp2, h⟩
    · simp [h]
    · simp [h, hp2]
  rw [insert_spec, classifyWit_eq P eid g p1 p2 w m hl]
  dsimp only
  split
  · exact Or.inl ⟨rfl, rfl⟩
  · right
    refine ⟨rfl, rfl, ?_, ?_⟩
    · rw [recordOf_eq P eid g p1 p2 w st.table m hl]
      exact hs
    · intro c hc
      rw [recordOf_eq P eid g p1 p2 w st.table m hl]
      dsimp only
      have hcc : chooseCode (getVC (lookupCodes P.roleCodes eid) (normalize w.role))
          (getVC (lookupCodes P.roleCodes eid) witnessKey) true = (c + 1, false) :=
        chooseCode_hit hc
      rw [hs, hcc]

/-- C2 counterexample: with no synchronizer role codes at all, a
self-witness is injected with outcome `principal` and its PRIMARY flag set,
but its role code is the fixed default 2 while the synchronizer registered
no PRINCIPAL-variant code whatsoever — refuting the original claim's
"PRINCIPAL-variant code" clause. -/
theorem c2_cex :
    (insert_single_witness exParamsC2 7 100 11 0
        ⟨String.toList "I1", String.toList "Buyer", []⟩ exSt0).1
      = Outcome.principal ∧
    (insert_single_witness exParamsC2 7 100 11 0
        ⟨String.toList "I1", String.toList "Buyer", []⟩ exSt0).2.table
      = [⟨11, 100, 1, 1, true, formatRole05 2,
          '[' :: (String.toList "Buyer" ++ [']', ' '])⟩] ∧
    principalCodesOf exParamsC2.roleCodes 7 = [] := by
  refine ⟨?_, ?_, ?_⟩ <;> decide

/-- Witness for C2: the self-witness of the running fixture (person I1
filling participant slot 11 of event 100) is injected as principal with its
PRIMARY flag set. -/
theorem c2_witness :
    alist_get exParams.gedToPerno (String.toList "I1") = some (10 + 1) ∧
    (10 + 1 = 11 ∨ (13 ≠ 0 ∧ 10 + 1 = 13)) ∧
    (insert_single_witness exParams 7 100 11 13
        ⟨String.toList "I1", String.toList "Buyer", String.toList "n2"⟩ exSt0).1
      = Outcome.principal ∧
    (recordOf exParams 7 100 11 13
        ⟨String.toList "I1", String.toList "Buyer", String.toList "n2"⟩
        exSt0.table).primary = true := by
  refine ⟨by decide, Or.inl (by decide), ?_⟩
  have h := c2_self_reference exParams 7 100 11 13
    ⟨String.toList "I1", String.toList "Buyer", String.toList "n2"⟩ exSt0 10
    (by decide) (Or.inl (by decide))
  rcases h with ⟨h1, _⟩ | ⟨h1, _, h3, _⟩
  · exact absurd h1 (by decide)
  · exact ⟨h1, h3⟩

/-- A falsy required-variant code always sends the injector down a fallback
branch, whose marker prepends the bracketed role label to the memo. -/
theorem chooseCode_fallback_snd {rm wm : VariantCodes} {s : Bool}
    (h : truthy (if s then rm.principal else rm.normal) = false) :
    (chooseCode rm wm s).2 = true := by
  unfold chooseCode
  rcases truthy_false_cases h with h1 | h1
  all_goals
    rw [h1]
    dsimp only
    cases hw : (if s then pyOr wm.principal wm.normal
        else pyOr wm.normal wm.principal) with
    | none => rfl
    | some n => cases n <;> rfl

/-- C6 (amended): when the matched event-type's synchronizer output holds no
truthy code of the required variant for the reference's role, the injector
falls back to the Witness role's same-variant code, then its other-variant
code, and finally the fixed default code 2 — and in EVERY fallback case (not
only the fixed-default one, as the original claim stated: see the
counterexample) the original role label in brackets is prepended to the note
field of the injected record. -/
theorem c6_fallback_chain (P : Params) (eid g p1 p2 : Nat) (w : WitRef)
    (st : InjState) (m : Nat) (s : Bool) (rm wm : VariantCodes)
    (hl : alist_get P.gedToPerno w.wit_ged = some (m + 1))
    (hsv : s = ((m + 1 == p1) || ((p2 != 0) && (m + 1 == p2))))
    (hrm : rm = getVC (lookupCodes P.roleCodes eid) (normalize w.role))
    (hwm : wm = getVC (lookupCodes P.roleCodes eid) witnessKey)
    (hreq : truthy (if s then rm.principal else rm.normal) = false) :
    (insert_single_witness P eid g p1 p2 w st).1 = Outcome.skip ∨
    ((insert_single_witness P eid g p1 p2 w st).2.table
        = st.table ++ [recordOf P eid g p1 p2 w st.table] ∧
      (recordOf P eid g p1 p2 w st.table).witmemo
        = ('[' :: ((getRoleLabels P.rolesDb (normalize w.role) w.role).eng ++
            (']' :: ' ' :: w.note))).take 60000 ∧
      (∀ c, (if s then wm.principal else wm.normal) = some (c + 1) →
        (recordOf P eid g p1 p2 w st.table).role = formatRole05 (c + 1)) ∧
      (∀ c, truthy (if s then wm.principal else wm.normal) = false →
        (if s then wm.normal else wm.principal) = some (c + 1) →
        (recordOf P eid g p1 p2 w st.table).role = formatRole05 (c + 1)) ∧
      (truthy (if s then wm.principal else wm.normal) = false →
        truthy (if s then wm.normal else wm.principal) = false →
        (recordOf P eid g p1 p2 w st.table).role = formatRole05 2)) := by
  subst hrm hwm hsv
  rw [insert_spec, classifyWit_eq P eid g p1 p2 w m hl]
  dsimp only
  split
  · exact Or.inl rfl
  · right
    refine ⟨rfl, ?_, ?_, ?_, ?_⟩
    · rw [recordOf_eq P eid g p1 p2 w st.table m hl]
      dsimp only
      rw [chooseCode_fallback_snd hreq]
      rfl
    · intro c hc
      rw [recordOf_eq P eid g p1 p2 w st.table m hl]
      dsimp only
      rw [chooseCode_fb1 hreq hc]
    · intro c hc1 hc2
      rw [recordOf_eq P eid g p1 p2 w st.table m hl]
      dsimp only
      rw [chooseCode_fb2 hreq hc1 hc2]
    · intro hc1 hc2
      rw [recordOf_eq P eid g p1 p2 w st.table m hl]
      dsimp only
      rw [chooseCode_default hreq hc1 hc2]

/-- C6 counterexample: the Buyer role has no code at all for event-type 7,
so the reference falls back to the Witness role's NORMAL code 9 — not the
fixed default 2 — yet the bracketed role label is still prepended to the
note, refuting the original claim's "exactly in that fixed-default case". -/
theorem c6_cex :
    (insert_single_witness exParamsC6 7 100 11 0
        ⟨String.toList "I2", String.toList "Buyer", String.toList "n"⟩ exSt0).2.table
      = [⟨12, 100, 1, 1, false, formatRole05 9,
          '[' :: (String.toList "Buyer" ++ (']' :: ' ' :: String.toList "n"))⟩] ∧
    formatRole05 9 ≠ formatRole05 2 := by
  refine ⟨?_, ?_⟩ <;> decide

/-- Witness for C6: a third-party Buyer reference under parameters whose
event-type 7 holds only the Witness NORMAL code 9 is injected with role code
9 and the bracketed label prepended to its note. -/
theorem c6_witness :
    alist_get exParamsC6.gedToPerno (String.toList "I2") = some (11 + 1) ∧
    truthy (if false then (⟨none, none⟩ : VariantCodes).principal
      else (⟨none, none⟩ : VariantCodes).normal) = false ∧
    (insert_single_witness exParamsC6 7 100 11 0
        ⟨String.toList "I2", String.toList "Buyer", String.toList "n"⟩ exSt0).2.table
      = exSt0.table ++ [recordOf exParamsC6 7 100 11 0
          ⟨String.toList "I2", String.toList "Buyer", String.toList "n"⟩ exSt0.table] ∧
    (recordOf exParamsC6 7 100 11 0
        ⟨String.toList "I2", String.toList "Buyer", String.toList "n"⟩
        exSt0.table).role = formatRole05 9 := by
  refine ⟨by decide, by decide, ?_⟩
  have h := c6_fallback_chain exParamsC6 7 100 11 0
    ⟨String.toList "I2", String.toList "Buyer", String.toList "n"⟩ exSt0 11 false
    ⟨none, none⟩ ⟨some 9, none⟩ (by decide) (by decide) (by decide) (by decide)
    (by decide)
  rcases h with h | ⟨h1, _, h3, _, _⟩
  · exact absurd h (by decide)
  · exact ⟨h1, h3 8 (by decide)⟩

end RoleInjector
